import Mathlib

/-!
Verification development for `correct_onedrive_names.py`, a script that walks a
directory tree and renames files and folders whose names violate OneDrive naming
restrictions.

Strings are modelled as `List Char` (Python `str`).  Path manipulation follows
`posixpath`: `basename`/`dirname` split at the last `/`, `splitext` splits the
final path component at its last dot unless every character before that dot is a
dot, and `join` inserts a separator when needed.  The filesystem is modelled as a
flat list of entries (path and a directory flag); `os.rename` moves a whole
subtree by prefix substitution and raises `FileExistsError` when the destination
path already exists (the semantics the script's `except FileExistsError` handler
is written against).
-/

namespace CODN

def str (s : String) : List Char := s.data

/-- Python whitespace characters stripped by `str.strip` (ASCII range). -/
def pyIsWs (c : Char) : Bool :=
  c == ' ' || c == '\t' || c == '\n' || c == '\r' || c == '\x0b' || c == '\x0c'

/-- Python `str.lstrip()`. -/
def lstrip (l : List Char) : List Char := l.dropWhile pyIsWs

/-- Python `str.rstrip()`. -/
def rstrip (l : List Char) : List Char := (l.reverse.dropWhile pyIsWs).reverse

/-- `startsWithL t s` is true when `t` is a leading segment of `s`. -/
def startsWithL : List Char → List Char → Bool
  | [], _ => true
  | _ :: _, [] => false
  | a :: t, b :: s => a == b && startsWithL t s

/-- Python `t in s` substring test. -/
def hasSub (t : List Char) : List Char → Bool
  | [] => t.isEmpty
  | a :: s => startsWithL t (a :: s) || hasSub t s

/-- Number of positions of `s` at which the pattern `t` occurs. -/
def countPos (t : List Char) : List Char → Nat
  | [] => 0
  | a :: s => (if startsWithL t (a :: s) then 1 else 0) + countPos t s

/-- Fuelled core of Python `str.replace` (left-to-right, non-overlapping). -/
def replaceSubF (o : Char) (os nw : List Char) : Nat → List Char → List Char
  | _, [] => []
  | 0, a :: s => a :: s
  | Nat.succ k, a :: s =>
    if startsWithL (o :: os) (a :: s) then nw ++ replaceSubF o os nw k (s.drop os.length)
    else a :: replaceSubF o os nw k s

/-- Python `s.replace(o :: os, nw)`. -/
def replaceSub (o : Char) (os nw s : List Char) : List Char :=
  replaceSubF o os nw s.length s

/-- One step of the script's substitution loop: replace a forbidden substring
by a single underscore (`new_basename.replace(substring, '_')`). -/
def replaceSubL (t : List Char) (s : List Char) : List Char :=
  match t with
  | [] => s
  | o :: os => replaceSub o os [yUnderscore] s
where yUnderscore : Char := '_'

/-- Sequentially replace each pattern of `ps` by an underscore (the `for
substring in forbidden_substrings` loop, generalised to any pattern list). -/
def repList (ps : List (List Char)) (s : List Char) : List Char :=
  ps.foldl (fun s t => replaceSubL t s) s

/-- Split a string at the LAST occurrence of `c`: `some (bef, aft)` with
`l = bef ++ c :: aft` and `c ∉ aft`, or `none` when `c` does not occur. -/
def splitAtLastOcc (c : Char) : List Char → Option (List Char × List Char)
  | [] => none
  | a :: s =>
    match splitAtLastOcc c s with
    | some (st, ex) => some (a :: st, ex)
    | none => if a = c then some ([], s) else none

/-- `posixpath.basename`: everything after the last `/`. -/
def basename (p : List Char) : List Char :=
  match splitAtLastOcc '/' p with
  | none => p
  | some (_, aft) => aft

/-- Remove trailing slashes. -/
def rstripSlash (l : List Char) : List Char :=
  (l.reverse.dropWhile (fun a => a == '/')).reverse

/-- `posixpath.dirname`: the prefix up to the last `/`, with trailing slashes
stripped unless the prefix is made of slashes only. -/
def dirname (p : List Char) : List Char :=
  match splitAtLastOcc '/' p with
  | none => []
  | some (bef, _) =>
    let head := bef ++ ['/']
    if head.all (fun a => a == '/') then head else rstripSlash head

/-- `posixpath.join` for two components. -/
def pathJoin (a b : List Char) : List Char :=
  if b.head? = some '/' then b
  else if a = [] ∨ a.getLast? = some '/' then a ++ b
  else a ++ '/' :: b

/-- `posixpath.splitext`: split at the last dot of the final path component,
unless every character of that component before the dot is itself a dot. -/
def splitext (p : List Char) : List Char × List Char :=
  match splitAtLastOcc '/' p with
  | none =>
    (match splitAtLastOcc '.' p with
     | none => (p, [])
     | some (st, aft) =>
       if st.any (fun a => a ≠ '.') then (st, '.' :: aft) else (p, []))
  | some (bef, aft) =>
    (match splitAtLastOcc '.' aft with
     | none => (p, [])
     | some (st, aft2) =>
       if st.any (fun a => a ≠ '.') then (bef ++ '/' :: st, '.' :: aft2)
       else (p, []))

/-! ## The source's name sanitizer (`generate_valid_name`) -/

/-- `forbidden_substrings` tuple from the source, in its order. -/
def forbidden_substrings : List (List Char) :=
  [str "\"", str "*", str ":", str "<", str ">", str "?", str "/", str "\\",
   str "|", str "_vti_"]

/-- `forbidden_names` tuple from the source (explicitly prohibited names). -/
def forbidden_names : List (List Char) :=
  [str ".lock", str "CON", str "PRN", str "AUX", str "NUL",
   str "COM0", str "COM1", str "COM2", str "COM3", str "COM4", str "COM5",
   str "COM6", str "COM7", str "COM8", str "COM9",
   str "LPT0", str "LPT1", str "LPT2", str "LPT3", str "LPT4", str "LPT5",
   str "LPT6", str "LPT7", str "LPT8", str "LPT9",
   str "desktop.ini"]

/-- The two non-fatal `warnings.warn` messages of `generate_valid_name`. -/
inductive Warning where
  | prohibitedName
  | temporaryFile
deriving DecidableEq

/-- The whitespace-normalisation step of `generate_valid_name`:
`new_basename = original_basename.lstrip()` followed by
`os.path.splitext(new_basename)[0].rstrip() + os.path.splitext(new_basename)[1].rstrip()`. -/
def stripBase (b : List Char) : List Char :=
  rstrip (splitext (lstrip b)).1 ++ rstrip (splitext (lstrip b)).2

/-- The `for substring in forbidden_substrings: new_basename =
new_basename.replace(substring, '_')` loop. -/
def repAll (s : List Char) : List Char := repList forbidden_substrings s

/-- The optional removal of an initial `~$` (`if new_basename[:2] == '~$':
new_basename = new_basename[2:]`), applied only when requested. -/
def tildeStep (rename_tilde_dollarsign : Bool) (nb : List Char) : List Char :=
  if rename_tilde_dollarsign then
    (if nb.take 2 = str "~$" then nb.drop 2 else nb)
  else nb

/-- `generate_valid_name(original_path, rename_tilde_dollarsign)`.  Returns the
corrected path together with the warning the source would emit (`warnings.warn`
does not raise, so the Python function is total and always returns a path). -/
def generate_valid_name (original_path : List Char)
    (rename_tilde_dollarsign : Bool) : List Char × Option Warning :=
  let original_basename := basename original_path
  let original_directory := dirname original_path
  if original_basename ∈ forbidden_names then
    (original_path, some Warning.prohibitedName)
  else if hasSub (str "~$") original_basename && !rename_tilde_dollarsign then
    (original_path, some Warning.temporaryFile)
  else
    (pathJoin original_directory
      (repAll (tildeStep rename_tilde_dollarsign (stripBase original_basename))),
     none)

/-! ## Collision resolution (`rename_fixing_dupes`) -/

/-- `digits = '1234567890'` from the source. -/
def digits : List Char := str "1234567890"

def digitCh (n : Nat) : Char := Char.ofNat (48 + n)

def natToCharsF : Nat → Nat → List Char
  | 0, _ => []
  | Nat.succ k, n =>
    if n < 10 then [digitCh n]
    else natToCharsF k (n / 10) ++ [digitCh (n % 10)]

/-- Decimal rendering of a natural number (Python `str(int)`), no leading zeros. -/
def natToChars (n : Nat) : List Char := natToCharsF (n + 1) n

/-- Python `int` of a digit string. -/
def digitsToNat (l : List Char) : Nat :=
  l.foldl (fun acc c => 10 * acc + (c.toNat - 48)) 0

/-- The candidate name computed inside the `except FileExistsError` handler of
`rename_fixing_dupes`: the extension `file_ext` is `os.path.splitext(new_name)[1]`
and the stem is `os.path.splitext(new_name)[0]`; if the stem ends in a digit
(`new_name[-1:] in digits`), the maximal trailing digit run
(`re.search(r'\d*$', new_name)`) is parsed, incremented and substituted back;
otherwise `' 1'` is appended; then the extension is reattached. -/
def dupe_candidate (new_name : List Char) : List Char :=
  if ((splitext new_name).1).getLastD ' ' ∈ digits then
    ((splitext new_name).1).take (((splitext new_name).1).length -
      ((((splitext new_name).1).reverse.takeWhile
        (fun d => d ∈ digits)).reverse).length) ++
    natToChars (digitsToNat
      ((((splitext new_name).1).reverse.takeWhile
        (fun d => d ∈ digits)).reverse) + 1) ++
    (splitext new_name).2
  else ((splitext new_name).1) ++ str " 1" ++ (splitext new_name).2

/-- A filesystem entry: an absolute path and whether it is a directory. -/
structure Entry where
  path : List Char
  isDir : Bool
deriving DecidableEq

/-- The two `OSError` subclasses relevant to the script. -/
inductive OSErr where
  | notFound
  | fileExists
deriving DecidableEq

def fsHas (fs : List Entry) (p : List Char) : Bool :=
  fs.any (fun e => e.path == p)

/-- Path rewriting performed by a rename: the renamed path itself, and every
path strictly below it, move to the new location. -/
def movePath (old nw p : List Char) : List Char :=
  if p = old then nw
  else if startsWithL (old ++ ['/']) p then nw ++ p.drop old.length
  else p

/-- `os.rename(old, nw)` on the flat filesystem: source must exist, a distinct
existing destination raises `FileExistsError`, otherwise the subtree moves. -/
def osRename (fs : List Entry) (old nw : List Char) : Except OSErr (List Entry) :=
  if fsHas fs old = false then Except.error OSErr.notFound
  else if nw ≠ old ∧ fsHas fs nw = true then Except.error OSErr.fileExists
  else Except.ok (fs.map (fun e => Entry.mk (movePath old nw e.path) e.isDir))

instance {ε α : Type} [DecidableEq ε] [DecidableEq α] :
    DecidableEq (Except ε α) := fun a b =>
  match a, b with
  | Except.error e, Except.error f =>
    if h : e = f then isTrue (by rw [h]) else isFalse (by intro he; cases he; exact h rfl)
  | Except.error _, Except.ok _ => isFalse (by intro he; cases he)
  | Except.ok _, Except.error _ => isFalse (by intro he; cases he)
  | Except.ok x, Except.ok y =>
    if h : x = y then isTrue (by rw [h]) else isFalse (by intro he; cases he; exact h rfl)

/-- Result of one `rename_fixing_dupes` call: the filesystem afterwards, the
returned path (or the uncaught exception), and how many `os.rename` calls were
attempted. -/
structure RenameOutcome where
  fs : List Entry
  result : Except OSErr (List Char)
  attempts : Nat
deriving DecidableEq

/-- `rename_fixing_dupes(orig_name, new_name)`: try the rename; on
`FileExistsError` retry exactly once with `dupe_candidate new_name`; any other
error, or a second `FileExistsError`, propagates uncaught and leaves the
filesystem unchanged. -/
def rename_fixing_dupes (fs : List Entry) (orig_name new_name : List Char) :
    RenameOutcome :=
  match osRename fs orig_name new_name with
  | Except.ok fs2 => RenameOutcome.mk fs2 (Except.ok new_name) 1
  | Except.error OSErr.fileExists =>
    match osRename fs orig_name (dupe_candidate new_name) with
    | Except.ok fs2 => RenameOutcome.mk fs2 (Except.ok (dupe_candidate new_name)) 2
    | Except.error e => RenameOutcome.mk fs (Except.error e) 2
  | Except.error e => RenameOutcome.mk fs (Except.error e) 1

/-! ## Logging and the tree walk -/

/-- The row built by `write_to_log`: `[old_path, new_path, override_datetime]`
when an override string is supplied, else `[old_path, new_path, str(datetime.datetime.now())]`. -/
def write_to_log_row (old_path new_path : List Char)
    (override_datetime : Option (List Char)) (now : List Char) :
    List (List Char) :=
  [old_path, new_path, override_datetime.getD now]

/-- The header row written by `write_to_log('old_path', 'new_path',
override_datetime='datetime')` before any rename. -/
def headerRow : List (List Char) :=
  write_to_log_row (str "old_path") (str "new_path") (some (str "datetime")) []

/-- Program state threaded through the walk: filesystem, log rows written so
far, the timestamp clock, and whether an uncaught exception aborted the run. -/
structure WalkState where
  fs : List Entry
  log : List (List (List Char))
  clock : Nat
  crashed : Bool
deriving DecidableEq

/-- Append one rename record (`write_to_log(folder, newname)` with the default
auto-generated timestamp, drawn from the stream `ts`). -/
def logRename (ts : Nat → List Char) (st : WalkState) (old nw : List Char) :
    WalkState :=
  WalkState.mk st.fs (st.log ++ [write_to_log_row old nw none (ts st.clock)])
    (st.clock + 1) st.crashed

/-- `os.scandir`: immediate children of a directory path. -/
def scandir (fs : List Entry) (p : List Char) : List Entry :=
  fs.filter (fun e => dirname e.path == p)

/-- One level of the directory loop (`for i in range(len(unscanned_directories))`):
for each pending folder, compute the corrected name `newname`; if it differs,
call `rename_fixing_dupes`, log `(folder, newname)` and store `newname` — the
PROPOSED name, not the path `rename_fixing_dupes` returned — back into the
list.  An uncaught exception aborts the run. -/
def processLevel (ts : Nat → List Char) :
    WalkState → List (List Char) → WalkState × List (List Char)
  | st, [] => (st, [])
  | st, folder :: rest =>
    if (generate_valid_name folder false).1 = folder then
      ((processLevel ts st rest).1, folder :: (processLevel ts st rest).2)
    else
      match (rename_fixing_dupes st.fs folder
          (generate_valid_name folder false).1).result with
      | Except.error _ =>
        (WalkState.mk (rename_fixing_dupes st.fs folder
            (generate_valid_name folder false).1).fs st.log st.clock true,
          folder :: rest)
      | Except.ok _ =>
        ((processLevel ts
            (logRename ts
              (WalkState.mk (rename_fixing_dupes st.fs folder
                (generate_valid_name folder false).1).fs st.log st.clock
                st.crashed)
              folder (generate_valid_name folder false).1) rest).1,
          (generate_valid_name folder false).1 ::
            (processLevel ts
              (logRename ts
                (WalkState.mk (rename_fixing_dupes st.fs folder
                  (generate_valid_name folder false).1).fs st.log st.clock
                  st.crashed)
                folder (generate_valid_name folder false).1) rest).2)

/-- The subdirectory scan building the next level from the (renamed) current
one. -/
def nextLevel (fs : List Entry) (renamed : List (List Char)) :
    List (List Char) :=
  renamed.foldl
    (fun acc folder =>
      acc ++ ((scandir fs folder).filter (fun e => e.isDir)).map
        (fun e => e.path)) []

/-- The `while unscanned_directories and while_counter < while_limit` loop:
process a level, then scan each (possibly renamed) entry for subdirectories. -/
def dirPhase (ts : Nat → List Char) :
    Nat → WalkState → List (List Char) → WalkState
  | 0, st, _ => st
  | Nat.succ fuel, st, pending =>
    if pending = [] then st
    else if (processLevel ts st pending).1.crashed then (processLevel ts st pending).1
    else
      dirPhase ts fuel (processLevel ts st pending).1
        (nextLevel (processLevel ts st pending).1.fs (processLevel ts st pending).2)

def isHiddenName (n : List Char) : Bool := n.head? == some '.'

def strictlyUnder (root p : List Char) : Bool := startsWithL (root ++ ['/']) p

/-- The file-enumeration step: on POSIX, non-hidden root files other than
`Icon` plus every file below a non-hidden root subfolder; otherwise every file
below the root (`os.walk`). -/
def find_files (posix : Bool) (fs : List Entry) (root : List Char) :
    List (List Char) :=
  if posix then
    let rootEntries := scandir fs root
    let files0 := (rootEntries.filter (fun e =>
      !e.isDir && !isHiddenName (basename e.path) &&
        !(basename e.path == str "Icon"))).map (fun e => e.path)
    let subfolders := (rootEntries.filter (fun e =>
      e.isDir && !isHiddenName (basename e.path))).map (fun e => e.path)
    files0 ++ subfolders.foldl
      (fun acc f =>
        acc ++ (fs.filter (fun e => !e.isDir && strictlyUnder f e.path)).map
          (fun e => e.path)) []
  else
    (fs.filter (fun e => !e.isDir && strictlyUnder root e.path)).map
      (fun e => e.path)

/-- The `for orig_file in onedrive_files` loop: sanitize, rename on change, log. -/
def filePhase (ts : Nat → List Char) :
    WalkState → List (List Char) → WalkState
  | st, [] => st
  | st, f :: rest =>
    if (generate_valid_name f false).1 = f then filePhase ts st rest
    else
      match (rename_fixing_dupes st.fs f
          (generate_valid_name f false).1).result with
      | Except.error _ =>
        WalkState.mk (rename_fixing_dupes st.fs f
          (generate_valid_name f false).1).fs st.log st.clock true
      | Except.ok _ =>
        filePhase ts
          (logRename ts
            (WalkState.mk (rename_fixing_dupes st.fs f
              (generate_valid_name f false).1).fs st.log st.clock st.crashed)
            f (generate_valid_name f false).1) rest

/-- The initial pending list: subdirectories of the root, excluding hidden
ones on POSIX. -/
def initialDirs (posix : Bool) (fs0 : List Entry) (root : List Char) :
    List (List Char) :=
  ((scandir fs0 root).filter (fun e =>
    e.isDir && (!posix || !isHiddenName (basename e.path)))).map (fun e => e.path)

/-- The whole script run: write the header row, walk directories level by
level, then process every file.  `ts` supplies the `datetime.now()` strings. -/
def runProgram (posix : Bool) (while_limit : Nat) (ts : Nat → List Char)
    (root : List Char) (fs0 : List Entry) : WalkState :=
  if (dirPhase ts while_limit (WalkState.mk fs0 [headerRow] 0 false)
      (initialDirs posix fs0 root)).crashed then
    dirPhase ts while_limit (WalkState.mk fs0 [headerRow] 0 false)
      (initialDirs posix fs0 root)
  else
    filePhase ts
      (dirPhase ts while_limit (WalkState.mk fs0 [headerRow] 0 false)
        (initialDirs posix fs0 root))
      (find_files posix
        (dirPhase ts while_limit (WalkState.mk fs0 [headerRow] 0 false)
          (initialDirs posix fs0 root)).fs root)

/-! ## Spec-side definitions (written from the wording of the spec, for
refinement comparisons against the source-derived definitions above) -/

/-- Modelled from the spec, §4.1 step 3: "strip leading whitespace from the
base name; strip trailing whitespace independently from the name stem and from
the extension (both sides of the last-dot split)". -/
def specStripName (b : List Char) : List Char :=
  match splitAtLastOcc '.' (lstrip b) with
  | none => rstrip (lstrip b)
  | some (st, aft) => rstrip st ++ rstrip ('.' :: aft)

/-- Literal "split at the last dot" of a whole path, as claim C4 words it. -/
def lastDotSplit (p : List Char) : List Char × List Char :=
  match splitAtLastOcc '.' p with
  | none => (p, [])
  | some (st, aft) => (st, '.' :: aft)

/-- Claim C4's description of the retry candidate, read literally with the
whole proposed path split at its last dot. -/
def lastDotCandidate (p : List Char) : List Char :=
  let stem := (lastDotSplit p).1
  let ext := (lastDotSplit p).2
  match stem.getLast? with
  | some c =>
    if c ∈ digits then
      let run := (stem.reverse.takeWhile (fun d => d ∈ digits)).reverse
      stem.take (stem.length - run.length) ++ natToChars (digitsToNat run + 1) ++ ext
    else stem ++ str " 1" ++ ext
  | none => stem ++ str " 1" ++ ext

/-! ## Basic lemmas: matching, substrings, stripping -/

theorem startsWithL_iff : ∀ (t s : List Char),
    startsWithL t s = true ↔ ∃ u, s = t ++ u
  | [], s => by simp [startsWithL]
  | _ :: _, [] => by simp [startsWithL]
  | a :: t, b :: s => by
    simp only [startsWithL, Bool.and_eq_true, beq_iff_eq]
    constructor
    · rintro ⟨rfl, h⟩
      obtain ⟨u, rfl⟩ := (startsWithL_iff t s).1 h
      exact ⟨u, rfl⟩
    · rintro ⟨u, h⟩
      injection h with h1 h2
      subst h1
      subst h2
      exact ⟨rfl, (startsWithL_iff t (t ++ u)).2 ⟨u, rfl⟩⟩

theorem startsWithL_append (t u : List Char) : startsWithL t (t ++ u) = true :=
  (startsWithL_iff t (t ++ u)).2 ⟨u, rfl⟩

theorem startsWithL_length {t s : List Char} (h : startsWithL t s = true) :
    t.length ≤ s.length := by
  obtain ⟨u, rfl⟩ := (startsWithL_iff t s).1 h
  simp

theorem hasSub_single : ∀ (c : Char) (s : List Char),
    hasSub [c] s = true ↔ c ∈ s
  | c, [] => by simp [hasSub, List.isEmpty]
  | c, a :: s => by
    simp only [hasSub, Bool.or_eq_true, List.mem_cons]
    rw [hasSub_single c s]
    constructor
    · rintro (h | h)
      · obtain ⟨u, hu⟩ := (startsWithL_iff [c] (a :: s)).1 h
        cases hu
        exact Or.inl rfl
      · exact Or.inr h
    · rintro (rfl | h)
      · exact Or.inl ((startsWithL_iff [c] (c :: s)).2 ⟨s, rfl⟩)
      · exact Or.inr h

theorem mem_takeWhile_mem {p : Char → Bool} :
    ∀ {l : List Char} {a : Char}, a ∈ l.takeWhile p → a ∈ l
  | [], _, h => by simp [List.takeWhile] at h
  | b :: l, a, h => by
    rw [List.takeWhile_cons] at h
    by_cases hp : p b = true
    · rw [if_pos hp] at h
      rcases List.mem_cons.1 h with rfl | h
      · exact List.mem_cons_self ..
      · exact List.mem_cons_of_mem _ (mem_takeWhile_mem h)
    · rw [if_neg hp] at h
      simp at h

theorem takeWhile_mem_pred {p : Char → Bool} :
    ∀ {l : List Char} {a : Char}, a ∈ l.takeWhile p → p a = true
  | [], _, h => by simp [List.takeWhile] at h
  | b :: l, a, h => by
    rw [List.takeWhile_cons] at h
    by_cases hp : p b = true
    · rw [if_pos hp] at h
      rcases List.mem_cons.1 h with rfl | h
      · exact hp
      · exact takeWhile_mem_pred h
    · rw [if_neg hp] at h
      simp at h

theorem dropWhile_headq {p : Char → Bool} :
    ∀ {l : List Char} {a : Char}, (l.dropWhile p).head? = some a → p a = false
  | [], _, h => by simp [List.dropWhile] at h
  | b :: l, a, h => by
    rw [List.dropWhile_cons] at h
    by_cases hp : p b = true
    · rw [if_pos hp] at h
      exact dropWhile_headq h
    · rw [if_neg hp] at h
      cases h
      exact Bool.not_eq_true _ ▸ hp

theorem dropWhile_mem {p : Char → Bool} {l : List Char} {a : Char}
    (h : a ∈ l.dropWhile p) : a ∈ l :=
  (List.dropWhile_suffix p).subset h

theorem dropWhile_eq_self {p : Char → Bool} {l : List Char}
    (h : ∀ a, l.head? = some a → p a = false) : l.dropWhile p = l := by
  cases l with
  | nil => rfl
  | cons b t =>
    rw [List.dropWhile_cons, if_neg]
    simp [h b rfl]

theorem lstrip_headq {b : List Char} {a : Char}
    (h : (lstrip b).head? = some a) : pyIsWs a = false :=
  dropWhile_headq h

theorem lstrip_eq_self {s : List Char}
    (h : ∀ a, s.head? = some a → pyIsWs a = false) : lstrip s = s :=
  dropWhile_eq_self h

theorem lstrip_mem {s : List Char} {a : Char} (h : a ∈ lstrip s) : a ∈ s :=
  dropWhile_mem h

theorem rstrip_cons (a : Char) (l : List Char) :
    rstrip (a :: l) =
      if rstrip l = [] then (if pyIsWs a then [] else [a]) else a :: rstrip l := by
  have hnil : rstrip l = [] ↔ (l.reverse.dropWhile pyIsWs).isEmpty = true := by
    rw [rstrip, List.isEmpty_iff, List.reverse_eq_nil_iff]
  rw [rstrip, List.reverse_cons, List.dropWhile_append]
  by_cases h : rstrip l = []
  · rw [if_pos (hnil.1 h), if_pos h]
    by_cases hw : pyIsWs a
    · simp [List.dropWhile_cons, hw, List.dropWhile_nil]
    · simp only [hw]
      simp [List.dropWhile_cons, hw]
  · rw [if_neg (fun hc => h (hnil.2 hc)), if_neg h, List.reverse_append]
    rw [rstrip]
    rfl

theorem rstrip_eq_nil_iff : ∀ (l : List Char),
    rstrip l = [] ↔ ∀ a ∈ l, pyIsWs a = true
  | [] => by simp [rstrip]
  | a :: l => by
    rw [rstrip_cons]
    by_cases h : rstrip l = []
    · rw [if_pos h]
      by_cases hw : pyIsWs a
      · rw [if_pos hw]
        constructor
        · intro _ x hx
          rcases List.mem_cons.1 hx with rfl | hx
          · exact hw
          · exact (rstrip_eq_nil_iff l).1 h x hx
        · intro _
          rfl
      · simp only [if_neg hw]
        simp only [List.mem_cons]
        constructor
        · intro hc
          exact absurd hc (by simp)
        · intro hc
          exact absurd (hc a (Or.inl rfl)) (by simp [hw])
    · rw [if_neg h]
      simp only [List.mem_cons]
      constructor
      · intro hc
        exact absurd hc (by simp)
      · intro hc
        exact absurd ((rstrip_eq_nil_iff l).2 fun x hx => hc x (Or.inr hx)) h

theorem rstrip_cons_nws {a : Char} (l : List Char) (h : pyIsWs a = false) :
    rstrip (a :: l) = a :: rstrip l := by
  rw [rstrip_cons]
  by_cases hn : rstrip l = []
  · rw [if_pos hn, if_neg (by simp [h]), hn]
  · rw [if_neg hn]

theorem rstrip_ne_nil_of_head {a : Char} {l : List Char} (h : pyIsWs a = false) :
    rstrip (a :: l) ≠ [] := by
  rw [rstrip_cons_nws l h]
  simp

theorem rstrip_append : ∀ (x y : List Char), rstrip y ≠ [] →
    rstrip (x ++ y) = x ++ rstrip y
  | [], y, _ => rfl
  | a :: x, y, h => by
    have ih := rstrip_append x y h
    rw [List.cons_append, rstrip_cons, ih, if_neg (by simp [h])]
    rfl

theorem rstrip_headq : ∀ {l : List Char} {a : Char},
    (rstrip l).head? = some a → l.head? = some a
  | [], a, h => by simp [rstrip] at h
  | b :: l, a, h => by
    rw [rstrip_cons] at h
    by_cases hn : rstrip l = []
    · rw [if_pos hn] at h
      by_cases hw : pyIsWs b
      · rw [if_pos hw] at h
        simp at h
      · rw [if_neg hw] at h
        cases h
        rfl
    · rw [if_neg hn] at h
      cases h
      rfl

theorem rstrip_lastq {l : List Char} {a : Char}
    (h : (rstrip l).getLast? = some a) : pyIsWs a = false := by
  rw [List.getLast?_eq_head?_reverse, rstrip, List.reverse_reverse] at h
  exact dropWhile_headq h

theorem rstrip_eq_self {l : List Char}
    (h : ∀ a, l.getLast? = some a → pyIsWs a = false) : rstrip l = l := by
  rw [rstrip, dropWhile_eq_self, List.reverse_reverse]
  intro a ha
  exact h a (by rw [List.getLast?_eq_head?_reverse]; exact ha)

theorem rstrip_mem {l : List Char} {a : Char} (h : a ∈ rstrip l) : a ∈ l := by
  rw [rstrip, List.mem_reverse] at h
  exact List.mem_reverse.1 (dropWhile_mem h)

/-! ## Lemmas about `splitAtLastOcc` and path splitting -/

theorem splitAtLastOcc_none_of (c : Char) : ∀ (p : List Char), c ∉ p →
    splitAtLastOcc c p = none
  | [], _ => rfl
  | a :: s, h => by
    have hs : c ∉ s := fun hc => h (List.mem_cons_of_mem _ hc)
    have ha : a ≠ c := fun hc => h (hc ▸ List.mem_cons_self a s)
    rw [splitAtLastOcc, splitAtLastOcc_none_of c s hs, if_neg ha]

theorem splitAtLastOcc_not_mem (c : Char) : ∀ (p : List Char),
    splitAtLastOcc c p = none → c ∉ p
  | [], _ => by simp
  | a :: s, h => by
    rw [splitAtLastOcc] at h
    cases hs : splitAtLastOcc c s with
    | some pair =>
      rw [hs] at h
      simp at h
    | none =>
      rw [hs] at h
      by_cases hac : a = c
      · rw [if_pos hac] at h
        simp at h
      · rw [if_neg hac] at h
        intro hm
        rcases List.mem_cons.1 hm with hm | hm
        · exact hac hm.symm
        · exact splitAtLastOcc_not_mem c s hs hm

theorem splitAtLastOcc_eq (c : Char) : ∀ (p bef aft : List Char),
    splitAtLastOcc c p = some (bef, aft) → p = bef ++ c :: aft ∧ c ∉ aft
  | [], bef, aft, h => by simp [splitAtLastOcc] at h
  | a :: s, bef, aft, h => by
    rw [splitAtLastOcc] at h
    cases hs : splitAtLastOcc c s with
    | some pair =>
      obtain ⟨st, ex⟩ := pair
      rw [hs] at h
      simp only [Option.some.injEq, Prod.mk.injEq] at h
      obtain ⟨h1, h2⟩ := h
      obtain ⟨hp, hn⟩ := splitAtLastOcc_eq c s st ex hs
      rw [← h1, ← h2, hp]
      exact ⟨rfl, hn⟩
    | none =>
      rw [hs] at h
      by_cases hac : a = c
      · rw [if_pos hac] at h
        simp only [Option.some.injEq, Prod.mk.injEq] at h
        obtain ⟨h1, h2⟩ := h
        rw [← h1, ← h2, hac]
        exact ⟨rfl, splitAtLastOcc_not_mem c s hs⟩
      · rw [if_neg hac] at h
        simp at h

theorem splitAtLastOcc_append (c : Char) : ∀ (bef aft : List Char), c ∉ aft →
    splitAtLastOcc c (bef ++ c :: aft) = some (bef, aft)
  | [], aft, h => by
    rw [List.nil_append, splitAtLastOcc, splitAtLastOcc_none_of c aft h, if_pos rfl]
  | a :: bef, aft, h => by
    rw [List.cons_append, splitAtLastOcc, splitAtLastOcc_append c bef aft h]

theorem basename_no_sep (p : List Char) : '/' ∉ basename p := by
  rw [basename]
  cases h : splitAtLastOcc '/' p with
  | none => exact splitAtLastOcc_not_mem _ _ h
  | some pair =>
    obtain ⟨bef, aft⟩ := pair
    exact (splitAtLastOcc_eq _ _ _ _ h).2

/-! ## Lemmas about `replaceSub` -/

theorem replaceSubF_nil (o : Char) (os nw : List Char) :
    ∀ (f : Nat), replaceSubF o os nw f [] = []
  | 0 => rfl
  | _ + 1 => rfl

theorem replaceSubF_irrel (o : Char) (os nw : List Char) :
    ∀ (f1 : Nat), ∀ (f2 : Nat) (s : List Char), s.length ≤ f1 → s.length ≤ f2 →
      replaceSubF o os nw f1 s = replaceSubF o os nw f2 s
  | f1, f2, [], _, _ => by
    rw [replaceSubF_nil, replaceSubF_nil]
  | 0, _, a :: s, h1, _ => by simp at h1
  | _ + 1, 0, a :: s, _, h2 => by simp at h2
  | k1 + 1, k2 + 1, a :: s, h1, h2 => by
    rw [List.length_cons] at h1 h2
    rw [replaceSubF, replaceSubF]
    by_cases h : startsWithL (o :: os) (a :: s) = true
    · rw [if_pos h, if_pos h,
        replaceSubF_irrel o os nw k1 k2 (s.drop os.length)
          (le_trans (by rw [List.length_drop]; omega) (Nat.le_of_succ_le_succ h1))
          (le_trans (by rw [List.length_drop]; omega) (Nat.le_of_succ_le_succ h2))]
    · rw [if_neg h, if_neg h,
        replaceSubF_irrel o os nw k1 k2 s (Nat.le_of_succ_le_succ h1)
          (Nat.le_of_succ_le_succ h2)]

theorem replaceSub_nil (o : Char) (os nw : List Char) :
    replaceSub o os nw [] = [] := rfl

theorem replaceSub_cons (o : Char) (os nw : List Char) (a : Char) (s : List Char) :
    replaceSub o os nw (a :: s) =
      if startsWithL (o :: os) (a :: s) then
        nw ++ replaceSub o os nw (s.drop os.length)
      else a :: replaceSub o os nw s := by
  rw [replaceSub, List.length_cons, replaceSubF]
  by_cases h : startsWithL (o :: os) (a :: s) = true
  · rw [if_pos h, if_pos h, replaceSub,
      replaceSubF_irrel o os nw s.length (s.drop os.length).length (s.drop os.length)
        (by rw [List.length_drop]; omega) le_rfl]
  · rw [if_neg h, if_neg h, replaceSub]

theorem replaceSub_mem (o : Char) (os nw : List Char) :
    ∀ (s : List Char), ∀ a ∈ replaceSub o os nw s, a ∈ s ∨ a ∈ nw
  | [] => by
    intro a ha
    rw [replaceSub_nil] at ha
    simp at ha
  | b :: s => by
    intro a ha
    rw [replaceSub_cons] at ha
    by_cases h : startsWithL (o :: os) (b :: s) = true
    · rw [if_pos h] at ha
      rcases List.mem_append.1 ha with ha | ha
      · exact Or.inr ha
      · rcases replaceSub_mem o os nw (s.drop os.length) a ha with ha | ha
        · exact Or.inl (List.mem_cons_of_mem _ (List.mem_of_mem_drop ha))
        · exact Or.inr ha
    · rw [if_neg h] at ha
      rcases List.mem_cons.1 ha with rfl | ha
      · exact Or.inl (List.mem_cons_self ..)
      · rcases replaceSub_mem o os nw s a ha with ha | ha
        · exact Or.inl (List.mem_cons_of_mem _ ha)
        · exact Or.inr ha
termination_by s => s.length
decreasing_by
  · rw [List.length_drop]
    simp only [List.length_cons]
    omega
  · simp

theorem replaceSub_id (o : Char) (os nw : List Char) :
    ∀ (s : List Char), hasSub (o :: os) s = false → replaceSub o os nw s = s
  | [], _ => rfl
  | b :: s, h => by
    rw [hasSub, Bool.or_eq_false_iff] at h
    rw [replaceSub_cons, if_neg (by rw [h.1]; simp), replaceSub_id o os nw s h.2]

theorem startsWithL_one (c a : Char) (s : List Char) :
    startsWithL [c] (a :: s) = (c == a) := by
  simp [startsWithL]

theorem replaceSub_single (c : Char) : ∀ (s : List Char),
    replaceSub c [] ['_'] s = s.map (fun a => if a = c then '_' else a)
  | [] => rfl
  | a :: s => by
    rw [replaceSub_cons, List.map_cons, startsWithL_one]
    by_cases h : c = a
    · subst h
      rw [if_pos (by simp)]
      simp only [List.length_nil, List.drop_zero]
      rw [replaceSub_single c s]
      simp
    · rw [if_neg (by simp; exact fun hc => h hc), replaceSub_single c s,
        if_neg (fun hc => h hc.symm)]

theorem replaceSub_ne_nil (o : Char) (os : List Char) {s : List Char}
    (hs : s ≠ []) : replaceSub o os ['_'] s ≠ [] := by
  obtain ⟨a, t, rfl⟩ := List.exists_cons_of_ne_nil hs
  rw [replaceSub_cons]
  by_cases h : startsWithL (o :: os) (a :: t) = true
  · rw [if_pos h]
    simp
  · rw [if_neg h]
    simp

theorem replaceSub_headq (o : Char) (os : List Char) {s : List Char}
    (hs : s ≠ []) :
    (replaceSub o os ['_'] s).head? = some '_' ∨
      (replaceSub o os ['_'] s).head? = s.head? := by
  obtain ⟨a, t, rfl⟩ := List.exists_cons_of_ne_nil hs
  rw [replaceSub_cons]
  by_cases h : startsWithL (o :: os) (a :: t) = true
  · rw [if_pos h]
    exact Or.inl rfl
  · rw [if_neg h]
    exact Or.inr rfl

theorem getLast?_cons_of_ne {a : Char} {l : List Char} (h : l ≠ []) :
    (a :: l).getLast? = l.getLast? := by
  rw [List.getLast?_eq_head?_reverse, List.getLast?_eq_head?_reverse,
    List.reverse_cons, List.head?_append_of_ne_nil]
  simpa using h

theorem drop_lastq (n : Nat) (s : List Char) (h : s.drop n ≠ []) :
    (s.drop n).getLast? = s.getLast? := by
  conv_rhs => rw [← List.take_append_drop n s]
  rw [List.getLast?_append]
  cases hl : (s.drop n).getLast? with
  | none => exact absurd (List.getLast?_eq_none_iff.1 hl) h
  | some a => rfl

theorem replaceSub_lastq (o : Char) (os : List Char) :
    ∀ (s : List Char), s ≠ [] →
      (replaceSub o os ['_'] s).getLast? = some '_' ∨
        (replaceSub o os ['_'] s).getLast? = s.getLast?
  | [], hs => absurd rfl hs
  | b :: s, _ => by
    rw [replaceSub_cons]
    by_cases h : startsWithL (o :: os) (b :: s) = true
    · rw [if_pos h]
      by_cases hd : s.drop os.length = []
      · rw [hd, replaceSub_nil]
        exact Or.inl rfl
      · have hne := replaceSub_ne_nil o os (s := s.drop os.length) hd
        have hsne : s ≠ [] := by
          intro hc
          subst hc
          simp at hd
        obtain ⟨x, hx⟩ := Option.ne_none_iff_exists'.1
          (fun hc => hne (List.getLast?_eq_none_iff.1 hc))
        rcases replaceSub_lastq o os (s.drop os.length) hd with hl | hl
        · left
          rw [List.getLast?_append, hx, hl.symm.trans hx]
          rfl
        · right
          rw [List.getLast?_append, hx, getLast?_cons_of_ne hsne,
            ← drop_lastq os.length s hd, ← hl, hx]
          rfl
    · rw [if_neg h]
      by_cases hs : s = []
      · subst hs
        right
        rfl
      · have hne := replaceSub_ne_nil o os (s := s) hs
        rw [getLast?_cons_of_ne hne, getLast?_cons_of_ne hs]
        exact replaceSub_lastq o os s hs
termination_by s => s.length
decreasing_by
  · rw [List.length_drop]
    simp only [List.length_cons]
    omega
  · simp

theorem replaceSub_skip (o : Char) (os nw : List Char) (c : Char)
    (hno : c ∉ o :: os) :
    ∀ (x y : List Char),
      replaceSub o os nw (x ++ c :: y) =
        replaceSub o os nw x ++ c :: replaceSub o os nw y
  | [], y => by
    rw [List.nil_append, replaceSub_cons, if_neg, replaceSub_nil, List.nil_append]
    intro hc
    obtain ⟨u, hu⟩ := (startsWithL_iff _ _).1 hc
    injection hu with h1 _
    exact hno (by rw [h1]; exact List.mem_cons_self ..)
  | a :: x, y => by
    rw [List.cons_append, replaceSub_cons, replaceSub_cons]
    by_cases h : startsWithL (o :: os) (a :: (x ++ c :: y)) = true
    · obtain ⟨u, hu⟩ := (startsWithL_iff _ _).1 h
      have hlen : os.length ≤ x.length := by
        by_contra hl
        push_neg at hl
        have h2 : ((o :: os) ++ u).take (x.length + 2) =
            (o :: os).take (x.length + 2) :=
          List.take_append_of_le_length (by simp; omega)
        have h3 : (a :: (x ++ c :: y)).take (x.length + 2) = a :: (x ++ [c]) := by
          rw [List.take_succ_cons]
          congr 1
          have : x.length + 1 = x.length + 1 := rfl
          rw [List.take_append]
          rfl
        rw [hu, h2] at h3
        have hcm : c ∈ (o :: os).take (x.length + 2) := by
          rw [h3]
          simp
        exact hno (List.take_subset _ _ hcm)
      injection hu with ha hxy
      have hxy2 : x ++ c :: y = os ++ u := hxy
      have hos : x.take os.length = os := by
        have := congrArg (fun l => List.take os.length l) hxy2
        simpa [List.take_append_of_le_length hlen, List.take_left] using this
      have hx2 : x = os ++ x.drop os.length := by
        conv_lhs => rw [← List.take_append_drop os.length x]
        rw [hos]
      have hsw : startsWithL (o :: os) (a :: x) = true := by
        apply (startsWithL_iff _ _).2
        refine ⟨x.drop os.length, ?_⟩
        rw [ha]
        conv_lhs => rw [hx2]
        rfl
      rw [if_pos h, if_pos hsw]
      have hdrop : (x ++ c :: y).drop os.length = x.drop os.length ++ c :: y :=
        List.drop_append_of_le_length hlen
      rw [hdrop, replaceSub_skip o os nw c hno (x.drop os.length) y,
        List.append_assoc]
    · have hsw : ¬ startsWithL (o :: os) (a :: x) = true := by
        intro hc
        apply h
        obtain ⟨v, hv⟩ := (startsWithL_iff _ _).1 hc
        apply (startsWithL_iff _ _).2
        refine ⟨v ++ c :: y, ?_⟩
        rw [← List.append_assoc, ← hv]
        rfl
      rw [if_neg h, if_neg hsw, replaceSub_skip o os nw c hno x y]
      rfl
termination_by x _ => x.length
decreasing_by
  · rw [List.length_drop]
    simp only [List.length_cons]
    omega
  · simp

/-! ## Lemmas about `repList` (the forbidden-substring loop) -/

theorem replaceSubL_nil (t : List Char) : replaceSubL t [] = [] := by
  cases t with
  | nil => rfl
  | cons o os => exact replaceSub_nil ..

theorem repList_nil : ∀ (ps : List (List Char)), repList ps [] = []
  | [] => rfl
  | t :: ps => by
    show repList ps (replaceSubL t []) = []
    rw [replaceSubL_nil]
    exact repList_nil ps

theorem repList_cons_p (t : List Char) (ps : List (List Char)) (s : List Char) :
    repList (t :: ps) s = repList ps (replaceSubL t s) := rfl

theorem repList_mem : ∀ (ps : List (List Char)) (s : List Char),
    ∀ a ∈ repList ps s, a ∈ s ∨ a = '_'
  | [], _ => fun _ ha => Or.inl ha
  | t :: ps, s => fun a ha => by
    rcases repList_mem ps (replaceSubL t s) a ha with h | h
    · cases t with
      | nil => exact Or.inl h
      | cons o os =>
        rcases replaceSub_mem o os ['_'] s a h with h2 | h2
        · exact Or.inl h2
        · right
          simpa using h2
    · exact Or.inr h

theorem replaceSubL_ne_nil (t : List Char) {s : List Char} (hs : s ≠ []) :
    replaceSubL t s ≠ [] := by
  cases t with
  | nil => exact hs
  | cons o os => exact replaceSub_ne_nil o os hs

theorem repList_ne_nil : ∀ (ps : List (List Char)) (s : List Char), s ≠ [] →
    repList ps s ≠ []
  | [], _, hs => hs
  | t :: ps, _, hs => repList_ne_nil ps _ (replaceSubL_ne_nil t hs)

theorem replaceSubL_headq (t : List Char) {s : List Char} (hs : s ≠ []) :
    (replaceSubL t s).head? = some '_' ∨ (replaceSubL t s).head? = s.head? := by
  cases t with
  | nil => exact Or.inr rfl
  | cons o os => exact replaceSub_headq o os hs

theorem repList_headq : ∀ (ps : List (List Char)) (s : List Char), s ≠ [] →
    (repList ps s).head? = some '_' ∨ (repList ps s).head? = s.head?
  | [], _, _ => Or.inr rfl
  | t :: ps, s, hs => by
    rcases repList_headq ps (replaceSubL t s) (replaceSubL_ne_nil t hs) with h | h
    · exact Or.inl h
    · rcases replaceSubL_headq t hs with h2 | h2
      · left
        rw [repList_cons_p, h, h2]
      · right
        rw [repList_cons_p, h, h2]

theorem replaceSubL_lastq (t : List Char) {s : List Char} (hs : s ≠ []) :
    (replaceSubL t s).getLast? = some '_' ∨ (replaceSubL t s).getLast? = s.getLast? := by
  cases t with
  | nil => exact Or.inr rfl
  | cons o os => exact replaceSub_lastq o os s hs

theorem repList_lastq : ∀ (ps : List (List Char)) (s : List Char), s ≠ [] →
    (repList ps s).getLast? = some '_' ∨ (repList ps s).getLast? = s.getLast?
  | [], _, _ => Or.inr rfl
  | t :: ps, s, hs => by
    rcases repList_lastq ps (replaceSubL t s) (replaceSubL_ne_nil t hs) with h | h
    · exact Or.inl h
    · rcases replaceSubL_lastq t hs with h2 | h2
      · left
        rw [repList_cons_p, h, h2]
      · right
        rw [repList_cons_p, h, h2]

theorem repList_id : ∀ (ps : List (List Char)) (s : List Char),
    (∀ t ∈ ps, t ≠ [] → hasSub t s = false) → repList ps s = s
  | [], _, _ => rfl
  | t :: ps, s, h => by
    have ht : replaceSubL t s = s := by
      cases t with
      | nil => rfl
      | cons o os =>
        exact replaceSub_id o os ['_'] s (h _ (List.mem_cons_self ..) (by simp))
    rw [repList_cons_p, ht]
    exact repList_id ps s fun t' ht' => h t' (List.mem_cons_of_mem _ ht')

theorem repList_skip (c : Char) : ∀ (ps : List (List Char)),
    (∀ t ∈ ps, c ∉ t) → ∀ (x y : List Char),
    repList ps (x ++ c :: y) = repList ps x ++ c :: repList ps y
  | [], _, _, _ => rfl
  | t :: ps, h, x, y => by
    have h1 : replaceSubL t (x ++ c :: y) = replaceSubL t x ++ c :: replaceSubL t y := by
      cases t with
      | nil => rfl
      | cons o os => exact replaceSub_skip o os ['_'] c (h _ (List.mem_cons_self ..)) x y
    rw [repList_cons_p, h1,
      repList_skip c ps (fun t' ht' => h t' (List.mem_cons_of_mem _ ht')) _ _,
      repList_cons_p, repList_cons_p]

theorem repList_dots (ps : List (List Char)) (hps : ∀ t ∈ ps, '.' ∉ t) :
    ∀ (ds u : List Char), (∀ a ∈ ds, a = '.') →
    repList ps (ds ++ u) = ds ++ repList ps u
  | [], _, _ => rfl
  | d :: ds, u, hds => by
    have hd : d = '.' := hds d (List.mem_cons_self ..)
    subst hd
    rw [List.cons_append,
      show ('.' :: (ds ++ u) : List Char) = [] ++ '.' :: (ds ++ u) from rfl,
      repList_skip '.' ps hps [] (ds ++ u), repList_nil,
      repList_dots ps hps ds u fun a ha => hds a (List.mem_cons_of_mem _ ha)]
    rfl

/-! ## Occurrence counting of the `~$` marker -/

theorem startsWithL_dollar (z : List Char) :
    startsWithL ['$'] z = (z.head? == some '$') := by
  cases z with
  | nil => rfl
  | cons c z =>
    rw [startsWithL_one]
    by_cases h : c = '$'
    · simp [h]
    · have h2 : ¬('$' = c) := fun hc => h hc.symm
      simp [h, h2]

theorem countPos_td_append : ∀ (x y : List Char), '~' ∉ x →
    countPos ['~', '$'] (x ++ y) = countPos ['~', '$'] y
  | [], _, _ => rfl
  | a :: x, y, h => by
    rw [List.cons_append, countPos, if_neg, Nat.zero_add,
      countPos_td_append x y fun hx => h (List.mem_cons_of_mem _ hx)]
    intro hc
    obtain ⟨u, hu⟩ := (startsWithL_iff _ _).1 hc
    injection hu with h1 _
    exact h (by rw [h1]; exact List.mem_cons_self ..)

theorem replaceSub_headq_dollar (o : Char) (os : List Char) (hd : '$' ∉ o :: os)
    (s : List Char) :
    (replaceSub o os ['_'] s).head? = some '$' ↔ s.head? = some '$' := by
  cases s with
  | nil =>
    rw [replaceSub_nil]
  | cons c s =>
    constructor
    · intro hh
      rcases replaceSub_headq o os (s := c :: s) (by simp) with h2 | h2
      · rw [hh] at h2
        simp at h2
      · rw [← h2, hh]
    · intro hh
      have hc : c = '$' := by simpa using hh
      subst hc
      rw [replaceSub_cons, if_neg]
      · rfl
      · intro hsw
        obtain ⟨u, hu⟩ := (startsWithL_iff _ _).1 hsw
        injection hu with h1 _
        exact hd (by rw [← h1]; exact List.mem_cons_self ..)

theorem countPos_replace (o : Char) (os : List Char)
    (ht : '~' ∉ o :: os) (hd : '$' ∉ o :: os) :
    ∀ (s : List Char),
    countPos ['~', '$'] (replaceSub o os ['_'] s) = countPos ['~', '$'] s
  | [] => by rw [replaceSub_nil]
  | b :: s => by
    rw [replaceSub_cons]
    by_cases h : startsWithL (o :: os) (b :: s) = true
    · rw [if_pos h]
      obtain ⟨u, hu⟩ := (startsWithL_iff _ _).1 h
      have hu2 := hu
      injection hu2 with ha hxy
      have hxy2 : s = os ++ u := hxy
      have hdrop : s.drop os.length = u := by rw [hxy2, List.drop_left]
      rw [hdrop,
        show (['_'] ++ replaceSub o os ['_'] u : List Char) =
          '_' :: replaceSub o os ['_'] u from rfl,
        countPos, if_neg (by
          intro hc
          obtain ⟨v, hv⟩ := (startsWithL_iff _ _).1 hc
          injection hv with hv1 _
          exact absurd hv1 (by decide)), Nat.zero_add,
        countPos_replace o os ht hd u, hu, countPos_td_append _ _ ht]
    · rw [if_neg h]
      have e1 : ∀ z : List Char, startsWithL ['~', '$'] (b :: z) =
          (('~' : Char) == b && (z.head? == some '$')) := by
        intro z
        show (('~' : Char) == b && startsWithL ['$'] z) = _
        rw [startsWithL_dollar]
      have hbe : startsWithL ['~', '$'] (b :: replaceSub o os ['_'] s) =
          startsWithL ['~', '$'] (b :: s) := by
        rw [e1, e1, Bool.eq_iff_iff]
        simp only [Bool.and_eq_true, beq_iff_eq]
        exact and_congr_right fun _ => replaceSub_headq_dollar o os hd s
      rw [countPos, countPos, hbe, countPos_replace o os ht hd s]
termination_by s => s.length

/-! ## Lemmas about `splitext`, `basename`, `dirname`, `pathJoin` -/

theorem mem_of_lastq {l : List Char} {a : Char} (h : l.getLast? = some a) :
    a ∈ l := by
  rw [List.getLast?_eq_head?_reverse] at h
  exact List.mem_reverse.1 (List.mem_of_mem_head? h)

theorem rstripSlash_lastq {l : List Char} {a : Char}
    (h : (rstripSlash l).getLast? = some a) : (a == '/') = false := by
  rw [List.getLast?_eq_head?_reverse, rstripSlash, List.reverse_reverse] at h
  exact dropWhile_headq (p := fun a => a == '/') h

theorem basename_none {p : List Char} (h : splitAtLastOcc '/' p = none) :
    basename p = p := by
  rw [basename, h]

theorem basename_some {p bef aft : List Char}
    (h : splitAtLastOcc '/' p = some (bef, aft)) : basename p = aft := by
  rw [basename, h]

theorem dirname_none {p : List Char} (h : splitAtLastOcc '/' p = none) :
    dirname p = [] := by
  rw [dirname, h]

theorem dirname_some {p bef aft : List Char}
    (h : splitAtLastOcc '/' p = some (bef, aft)) :
    dirname p =
      if (bef ++ ['/']).all (fun a => a == '/') = true then bef ++ ['/']
      else rstripSlash (bef ++ ['/']) := by
  rw [dirname, h]

theorem splitext_no_dot {x : List Char} (hs : '/' ∉ x) (hd : '.' ∉ x) :
    splitext x = (x, []) := by
  unfold splitext
  rw [splitAtLastOcc_none_of '/' x hs, splitAtLastOcc_none_of '.' x hd]

theorem splitext_dot_split {x st aft : List Char} (hs : '/' ∉ x)
    (hx : splitAtLastOcc '.' x = some (st, aft))
    (hany : st.any (fun a => a ≠ '.') = true) :
    splitext x = (st, '.' :: aft) := by
  unfold splitext
  rw [splitAtLastOcc_none_of '/' x hs, hx]
  simp only [hany, if_true]

theorem splitext_dot_nosplit {x st aft : List Char} (hs : '/' ∉ x)
    (hx : splitAtLastOcc '.' x = some (st, aft))
    (hany : st.any (fun a => a ≠ '.') = false) :
    splitext x = (x, []) := by
  unfold splitext
  rw [splitAtLastOcc_none_of '/' x hs, hx]
  simp only [hany, Bool.false_eq_true, if_false]

theorem dirname_shape (p : List Char) :
    dirname p = [] ∨ (∀ a ∈ dirname p, a = '/') ∨ (dirname p).getLast? ≠ some '/' := by
  cases h : splitAtLastOcc '/' p with
  | none => exact Or.inl (dirname_none h)
  | some pair =>
    obtain ⟨bef, aft⟩ := pair
    rw [dirname_some h]
    by_cases hall : ((bef ++ ['/']).all fun a => a == '/') = true
    · rw [if_pos hall]
      right
      left
      intro a ha
      exact beq_iff_eq.1 (List.all_eq_true.1 hall a ha)
    · rw [if_neg hall]
      right
      right
      intro hc
      have := rstripSlash_lastq hc
      simp at this

theorem pathJoin_split {d n : List Char} (hn : '/' ∉ n)
    (hd : d = [] ∨ (∀ a ∈ d, a = '/') ∨ d.getLast? ≠ some '/') :
    basename (pathJoin d n) = n ∧ dirname (pathJoin d n) = d := by
  have hnh : ¬ n.head? = some '/' := by
    cases n with
    | nil => simp
    | cons a t =>
      intro hc
      injection hc with hc
      exact hn (by rw [hc]; exact List.mem_cons_self ..)
  by_cases hd0 : d = []
  · subst hd0
    rw [pathJoin, if_neg hnh, if_pos (Or.inl rfl), List.nil_append]
    exact ⟨basename_none (splitAtLastOcc_none_of '/' n hn),
      dirname_none (splitAtLastOcc_none_of '/' n hn)⟩
  · by_cases hsl : d.getLast? = some '/'
    · have hall : ∀ a ∈ d, a = '/' := by
        rcases hd with hd | hd | hd
        · exact absurd hd hd0
        · exact hd
        · exact absurd hsl hd
      have hdl : d.dropLast ++ ['/'] = d := by
        have := List.dropLast_append_getLast hd0
        rwa [List.getLast_eq_iff_getLast?_eq_some hd0 |>.2 hsl] at this
      rw [pathJoin, if_neg hnh, if_pos (Or.inr hsl)]
      have hq : d ++ n = d.dropLast ++ '/' :: n := by
        conv_lhs => rw [← hdl]
        rw [List.append_assoc]
        rfl
      have hsp : splitAtLastOcc '/' (d ++ n) = some (d.dropLast, n) := by
        rw [hq]
        exact splitAtLastOcc_append '/' _ _ hn
      have hcond : ((d.dropLast ++ ['/']).all fun a => a == '/') = true := by
        rw [hdl]
        exact List.all_eq_true.2 fun a ha => beq_iff_eq.2 (hall a ha)
      exact ⟨basename_some hsp, by rw [dirname_some hsp, if_pos hcond, hdl]⟩
    · rw [pathJoin, if_neg hnh, if_neg (by push_neg; exact ⟨hd0, hsl⟩)]
      obtain ⟨a, hga⟩ := Option.ne_none_iff_exists'.1
        (fun hc => hd0 (List.getLast?_eq_none_iff.1 hc))
      have hane : a ≠ '/' := fun hc => hsl (hc ▸ hga)
      have hsp : splitAtLastOcc '/' (d ++ '/' :: n) = some (d, n) :=
        splitAtLastOcc_append '/' _ _ hn
      have hcond : ¬ ((d ++ ['/']).all fun a => a == '/') = true := by
        intro hc
        have := List.all_eq_true.1 hc a (List.mem_append.2 (Or.inl (mem_of_lastq hga)))
        exact hane (beq_iff_eq.1 this)
      refine ⟨basename_some hsp, ?_⟩
      rw [dirname_some hsp, if_neg hcond, rstripSlash, List.reverse_append]
      have h1 : (['/'] : List Char).reverse = ['/'] := rfl
      rw [h1, List.cons_append, List.nil_append, List.dropWhile_cons,
        if_pos (by simp), dropWhile_eq_self, List.reverse_reverse]
      intro b hb
      rw [List.getLast?_eq_head?_reverse] at hga
      rw [hb] at hga
      injection hga with hga
      subst hga
      simp [hane]

theorem pathJoin_round {p n : List Char} (hn : '/' ∉ n) :
    basename (pathJoin (dirname p) n) = n ∧
      pathJoin (dirname (pathJoin (dirname p) n)) n = pathJoin (dirname p) n := by
  obtain ⟨h1, h2⟩ := pathJoin_split hn (dirname_shape p)
  exact ⟨h1, by rw [h2]⟩

/-! ## Corollaries about `repAll` for the concrete forbidden-substring list -/

theorem forb_no_dot : ∀ t ∈ forbidden_substrings, '.' ∉ t := by decide

theorem forb_no_td : ∀ t ∈ forbidden_substrings, '~' ∉ t ∧ '$' ∉ t := by decide

theorem repAll_nil : repAll [] = [] := repList_nil _

theorem repAll_ne_nil {s : List Char} (hs : s ≠ []) : repAll s ≠ [] :=
  repList_ne_nil _ s hs

theorem repAll_mem {s : List Char} {a : Char} (h : a ∈ repAll s) :
    a ∈ s ∨ a = '_' := repList_mem _ s a h

theorem repAll_dots {ds : List Char} (u : List Char) (hds : ∀ a ∈ ds, a = '.') :
    repAll (ds ++ u) = ds ++ repAll u := repList_dots _ forb_no_dot ds u hds

theorem repAll_dot_skip (x y : List Char) :
    repAll (x ++ '.' :: y) = repAll x ++ '.' :: repAll y :=
  repList_skip '.' _ forb_no_dot x y

theorem countPos_repList : ∀ (ps : List (List Char)),
    (∀ t ∈ ps, '~' ∉ t ∧ '$' ∉ t) → ∀ (s : List Char),
    countPos ['~', '$'] (repList ps s) = countPos ['~', '$'] s
  | [], _, _ => rfl
  | t :: ps, h, s => by
    rw [repList_cons_p,
      countPos_repList ps (fun t' ht' => h t' (List.mem_cons_of_mem _ ht')) _]
    cases t with
    | nil => rfl
    | cons o os =>
      exact countPos_replace o os (h _ (List.mem_cons_self ..)).1
        (h _ (List.mem_cons_self ..)).2 s

theorem countPos_repAll (s : List Char) :
    countPos ['~', '$'] (repAll s) = countPos ['~', '$'] s :=
  countPos_repList _ forb_no_td s

theorem repList_not_mem {c : Char} (hc : c ≠ '_') {ps : List (List Char)}
    {s : List Char} (hs : c ∉ s) : c ∉ repList ps s :=
  fun h => (repList_mem ps s c h).elim hs hc

theorem replaceSubL_single_not_mem (c : Char) (hc : c ≠ '_') (s : List Char) :
    c ∉ replaceSubL [c] s := by
  rw [show replaceSubL [c] s = replaceSub c [] ['_'] s from rfl, replaceSub_single]
  intro h
  obtain ⟨b, hb, hbe⟩ := List.mem_map.1 h
  by_cases h2 : b = c
  · rw [if_pos h2] at hbe
    exact hc hbe.symm
  · rw [if_neg h2] at hbe
    exact h2 hbe

theorem repAll_not_mem_nine {c : Char} (hc : [c] ∈ forbidden_substrings)
    (hu : c ≠ '_') (s : List Char) : c ∉ repAll s := by
  obtain ⟨ps1, ps2, hps⟩ := List.append_of_mem hc
  rw [repAll, hps]
  show c ∉ repList (ps1 ++ [c] :: ps2) s
  rw [repList, List.foldl_append]
  show c ∉ repList ([c] :: ps2) (repList ps1 s)
  rw [repList_cons_p]
  exact repList_not_mem hu (replaceSubL_single_not_mem c hu _)

theorem repAll_no_sep (s : List Char) : '/' ∉ repAll s :=
  repAll_not_mem_nine (by decide) (by decide) s

theorem repList_head_nws (ps : List (List Char)) {u : List Char} (hu : u ≠ [])
    (h : ∀ a, u.head? = some a → pyIsWs a = false) :
    ∀ a, (repList ps u).head? = some a → pyIsWs a = false := by
  intro a ha
  rcases repList_headq ps u hu with h2 | h2
  · rw [ha] at h2
    injection h2 with h2
    rw [h2]
    decide
  · rw [h2] at ha
    exact h a ha

theorem repList_last_nws (ps : List (List Char)) {u : List Char} (hu : u ≠ [])
    (h : ∀ a, u.getLast? = some a → pyIsWs a = false) :
    ∀ a, (repList ps u).getLast? = some a → pyIsWs a = false := by
  intro a ha
  rcases repList_lastq ps u hu with h2 | h2
  · rw [ha] at h2
    injection h2 with h2
    rw [h2]
    decide
  · rw [h2] at ha
    exact h a ha

theorem rstrip_repList_rstrip (ps : List (List Char)) {u : List Char}
    (hu : rstrip u ≠ []) :
    rstrip (repList ps (rstrip u)) = repList ps (rstrip u) :=
  rstrip_eq_self (repList_last_nws ps hu fun _ ha => rstrip_lastq ha)

/-! ## Stability of the whitespace-strip step on sanitizer output -/

theorem stripBase_nil : stripBase [] = [] := rfl

theorem stripBase_repList_fixed (ps : List (List Char))
    (hps_dot : ∀ t ∈ ps, '.' ∉ t)
    (hps_sep : ∀ s : List Char, '/' ∉ repList ps s)
    {b : List Char} (hb : '/' ∉ b) :
    stripBase (repList ps (stripBase b)) = repList ps (stripBase b) := by
  have hx_sep : '/' ∉ lstrip b := fun hm => hb (lstrip_mem hm)
  have hGx : ∀ a, (lstrip b).head? = some a → pyIsWs a = false :=
    fun _ ha => lstrip_headq ha
  cases hdot : splitAtLastOcc '.' (lstrip b) with
  | none =>
    have hd : '.' ∉ lstrip b := splitAtLastOcc_not_mem _ _ hdot
    have hse : splitext (lstrip b) = (lstrip b, []) := splitext_no_dot hx_sep hd
    have hsb : stripBase b = rstrip (lstrip b) := by
      rw [stripBase, hse]
      show rstrip (lstrip b) ++ rstrip [] = rstrip (lstrip b)
      rw [show rstrip ([] : List Char) = [] from rfl, List.append_nil]
    by_cases hc0 : rstrip (lstrip b) = []
    · rw [hsb, hc0, repList_nil ps, stripBase_nil]
    · have hBdot : '.' ∉ repList ps (rstrip (lstrip b)) := by
        intro hm
        rcases repList_mem ps _ _ hm with hm | hm
        · exact hd (rstrip_mem hm)
        · exact absurd hm (by decide)
      have hBsep : '/' ∉ repList ps (rstrip (lstrip b)) := hps_sep _
      have hBhead : ∀ a, (repList ps (rstrip (lstrip b))).head? = some a →
          pyIsWs a = false :=
        repList_head_nws ps hc0 fun a ha => hGx a (rstrip_headq ha)
      rw [hsb, stripBase, lstrip_eq_self hBhead, splitext_no_dot hBsep hBdot]
      show rstrip (repList ps (rstrip (lstrip b))) ++ rstrip [] = _
      rw [show rstrip ([] : List Char) = [] from rfl, List.append_nil]
      exact rstrip_repList_rstrip ps hc0
  | some pair =>
    obtain ⟨st, aft⟩ := pair
    obtain ⟨hxeq, haft⟩ := splitAtLastOcc_eq '.' _ _ _ hdot
    have hea : rstrip ('.' :: aft) = '.' :: rstrip aft :=
      rstrip_cons_nws aft (by decide)
    have hTd : '.' ∉ rstrip aft := fun hm => haft (rstrip_mem hm)
    have hTlast : ∀ a, (rstrip aft).getLast? = some a → pyIsWs a = false :=
      fun _ ha => rstrip_lastq ha
    have hTd2 : '.' ∉ repList ps (rstrip aft) := by
      intro hm
      rcases repList_mem ps _ _ hm with hm | hm
      · exact hTd hm
      · exact absurd hm (by decide)
    have hTlast2 : ∀ a, ('.' :: repList ps (rstrip aft)).getLast? = some a →
        pyIsWs a = false := by
      intro a ha
      by_cases hT0 : repList ps (rstrip aft) = []
      · rw [hT0] at ha
        injection ha with ha
        rw [← ha]
        decide
      · rw [getLast?_cons_of_ne hT0] at ha
        have ht'ne : rstrip aft ≠ [] := by
          intro hc
          rw [hc, repList_nil ps] at hT0
          exact hT0 rfl
        exact repList_last_nws ps ht'ne hTlast a ha
    by_cases hany : st.any (fun a => a ≠ '.') = true
    · -- the last dot is a genuine extension separator
      have hse : splitext (lstrip b) = (st, '.' :: aft) :=
        splitext_dot_split hx_sep hdot hany
      have hstne : st ≠ [] := by
        intro hc
        rw [hc] at hany
        simp at hany
      have hsthead : ∀ a, st.head? = some a → pyIsWs a = false := by
        intro a ha
        apply hGx a
        rw [hxeq, List.head?_append_of_ne_nil _ hstne]
        exact ha
      have hr'ne : rstrip st ≠ [] := by
        intro hc
        obtain ⟨a0, t0, h0⟩ := List.exists_cons_of_ne_nil hstne
        have h1 := (rstrip_eq_nil_iff st).1 hc a0
          (by rw [h0]; exact List.mem_cons_self ..)
        have h2 := hsthead a0 (by rw [h0]; rfl)
        rw [h1] at h2
        cases h2
      have hsb : stripBase b = rstrip st ++ '.' :: rstrip aft := by
        rw [stripBase, hse]
        show rstrip st ++ rstrip ('.' :: aft) = _
        rw [hea]
      have hBfac : repList ps (rstrip st ++ '.' :: rstrip aft) =
          repList ps (rstrip st) ++ '.' :: repList ps (rstrip aft) :=
        repList_skip '.' ps hps_dot _ _
      have hRne : repList ps (rstrip st) ≠ [] := repList_ne_nil ps _ hr'ne
      have hBsplit : splitAtLastOcc '.'
          (repList ps (rstrip st) ++ '.' :: repList ps (rstrip aft)) =
          some (repList ps (rstrip st), repList ps (rstrip aft)) :=
        splitAtLastOcc_append '.' _ _ hTd2
      have hBsep : '/' ∉ repList ps (rstrip st) ++ '.' :: repList ps (rstrip aft) := by
        intro hm
        rcases List.mem_append.1 hm with hm | hm
        · exact hps_sep _ hm
        · rcases List.mem_cons.1 hm with hm | hm
          · exact absurd hm (by decide)
          · exact hps_sep _ hm
      have hBhead : ∀ a,
          (repList ps (rstrip st) ++ '.' :: repList ps (rstrip aft)).head? = some a →
          pyIsWs a = false := by
        intro a ha
        rw [List.head?_append_of_ne_nil _ hRne] at ha
        exact repList_head_nws ps hr'ne
          (fun a2 ha2 => hsthead a2 (rstrip_headq ha2)) a ha
      have hRlast : ∀ a, (repList ps (rstrip st)).getLast? = some a →
          pyIsWs a = false :=
        repList_last_nws ps hr'ne fun _ ha => rstrip_lastq ha
      rw [hsb, hBfac, stripBase, lstrip_eq_self hBhead]
      by_cases hany2 : (repList ps (rstrip st)).any (fun a => a ≠ '.') = true
      · rw [splitext_dot_split hBsep hBsplit hany2]
        show rstrip (repList ps (rstrip st)) ++
          rstrip ('.' :: repList ps (rstrip aft)) = _
        rw [rstrip_eq_self hRlast, rstrip_cons_nws _ (by decide)]
        by_cases hT0 : repList ps (rstrip aft) = []
        · rw [hT0, show rstrip ([] : List Char) = [] from rfl]
        · have ht'ne : rstrip aft ≠ [] := by
            intro hc
            rw [hc, repList_nil ps] at hT0
            exact hT0 rfl
          rw [rstrip_eq_self (repList_last_nws ps ht'ne hTlast)]
      · have hany2f : (repList ps (rstrip st)).any (fun a => a ≠ '.') = false := by
          simpa using hany2
        rw [splitext_dot_nosplit hBsep hBsplit hany2f]
        show rstrip (repList ps (rstrip st) ++ '.' :: repList ps (rstrip aft)) ++
          rstrip [] = _
        rw [show rstrip ([] : List Char) = [] from rfl, List.append_nil]
        apply rstrip_eq_self
        intro a ha
        rw [List.getLast?_append] at ha
        cases ha2 : ('.' :: repList ps (rstrip aft)).getLast? with
        | none =>
          rw [List.getLast?_eq_none_iff] at ha2
          simp at ha2
        | some a2 =>
          rw [ha2] at ha
          have he : (some a2).or (repList ps (rstrip st)).getLast? = some a2 := rfl
          rw [he] at ha
          injection ha with ha
          exact ha ▸ hTlast2 a2 ha2
    · -- every character before the last dot is itself a dot: no extension
      have hany0 : st.any (fun a => a ≠ '.') = false := by
        simpa using hany
      have hany' : ∀ a ∈ st, a = '.' := by
        intro a ha
        by_contra hc
        have h1 : st.any (fun a => a ≠ '.') = true :=
          List.any_eq_true.2 ⟨a, ha, by simpa using hc⟩
        rw [h1] at hany0
        cases hany0
      have hse : splitext (lstrip b) = (lstrip b, []) :=
        splitext_dot_nosplit hx_sep hdot hany0
      have hrne : rstrip ('.' :: aft) ≠ [] := rstrip_ne_nil_of_head (by decide)
      have hsb : stripBase b = st ++ '.' :: rstrip aft := by
        rw [stripBase, hse]
        show rstrip (lstrip b) ++ rstrip [] = _
        rw [show rstrip ([] : List Char) = [] from rfl, List.append_nil, hxeq,
          rstrip_append st ('.' :: aft) hrne, hea]
      have hdots : ∀ a ∈ st ++ ['.'], a = '.' := by
        intro a ha
        rcases List.mem_append.1 ha with ha | ha
        · exact hany' a ha
        · simpa using ha
      have hBfac : repList ps (st ++ '.' :: rstrip aft) =
          st ++ '.' :: repList ps (rstrip aft) := by
        have h1 : st ++ '.' :: rstrip aft = (st ++ ['.']) ++ rstrip aft := by
          rw [List.append_assoc]
          rfl
        have h2 : st ++ '.' :: repList ps (rstrip aft) =
            (st ++ ['.']) ++ repList ps (rstrip aft) := by
          rw [List.append_assoc]
          rfl
        rw [h1, h2, repList_dots ps hps_dot _ _ hdots]
      have hBsplit : splitAtLastOcc '.' (st ++ '.' :: repList ps (rstrip aft)) =
          some (st, repList ps (rstrip aft)) := splitAtLastOcc_append '.' _ _ hTd2
      have hBsep2 : '/' ∉ st ++ '.' :: repList ps (rstrip aft) := by
        intro hm
        rcases List.mem_append.1 hm with hm | hm
        · exact absurd (hany' _ hm) (by decide)
        · rcases List.mem_cons.1 hm with hm | hm
          · exact absurd hm (by decide)
          · exact hps_sep _ hm
      have hBhead2 : ∀ a, (st ++ '.' :: repList ps (rstrip aft)).head? = some a →
          pyIsWs a = false := by
        intro a ha
        by_cases hst0 : st = []
        · rw [hst0] at ha
          injection ha with ha
          rw [← ha]
          decide
        · rw [List.head?_append_of_ne_nil _ hst0] at ha
          have := hany' a (List.mem_of_mem_head? ha)
          rw [this]
          decide
      rw [hsb, hBfac, stripBase, lstrip_eq_self hBhead2,
        splitext_dot_nosplit hBsep2 hBsplit hany0]
      show rstrip (st ++ '.' :: repList ps (rstrip aft)) ++ rstrip [] = _
      rw [show rstrip ([] : List Char) = [] from rfl, List.append_nil]
      apply rstrip_eq_self
      intro a ha
      rw [List.getLast?_append] at ha
      cases ha2 : ('.' :: repList ps (rstrip aft)).getLast? with
      | none =>
        rw [List.getLast?_eq_none_iff] at ha2
        simp at ha2
      | some a2 =>
        rw [ha2] at ha
        have he : (some a2).or st.getLast? = some a2 := rfl
        rw [he] at ha
        injection ha with ha
        exact ha ▸ hTlast2 a2 ha2

theorem stripBase_repAll_fixed {b : List Char} (hb : '/' ∉ b) :
    stripBase (repAll (stripBase b)) = repAll (stripBase b) :=
  stripBase_repList_fixed forbidden_substrings forb_no_dot repAll_no_sep hb


/-! ## Unfolding lemmas for `generate_valid_name`, and idempotence machinery -/

theorem hasSub_single_false {c : Char} {s : List Char} (h : c ∉ s) :
    hasSub [c] s = false := by
  cases hcs : hasSub [c] s
  · rfl
  · exact absurd ((hasSub_single c s).1 hcs) h

theorem forb_shape : ∀ t ∈ forbidden_substrings,
    (t = [t.headD ' '] ∧ t.headD ' ' ≠ '_') ∨ t = str "_vti_" := by decide

theorem repAll_fix {s : List Char}
    (h9 : ∀ c, [c] ∈ forbidden_substrings → c ≠ '_' → c ∉ s)
    (hvti : hasSub (str "_vti_") s = false) :
    repAll s = s := by
  apply repList_id
  intro t ht _
  rcases forb_shape t ht with ⟨h1, h2⟩ | h1
  · rw [h1]
    exact hasSub_single_false (h9 _ (h1 ▸ ht) h2)
  · rw [h1]
    exact hvti

theorem sanitizeBase_fixed {b : List Char} (hb : '/' ∉ b)
    (hvti : hasSub (str "_vti_") (repAll (stripBase b)) = false) :
    repAll (stripBase (repAll (stripBase b))) = repAll (stripBase b) := by
  rw [stripBase_repAll_fixed hb]
  exact repAll_fix (fun c hc hcu => repAll_not_mem_nine hc hcu _) hvti

theorem gvn_reserved {p : List Char} (h : basename p ∈ forbidden_names)
    (fl : Bool) :
    generate_valid_name p fl = (p, some Warning.prohibitedName) := by
  unfold generate_valid_name
  rw [if_pos h]

theorem gvn_temp {p : List Char} (h1 : basename p ∉ forbidden_names)
    (h2 : hasSub (str "~$") (basename p) = true) :
    generate_valid_name p false = (p, some Warning.temporaryFile) := by
  unfold generate_valid_name
  rw [if_neg h1, if_pos (by rw [h2]; rfl)]

theorem gvn_main {p : List Char} (h1 : basename p ∉ forbidden_names)
    (h2 : hasSub (str "~$") (basename p) = false) :
    generate_valid_name p false =
      (pathJoin (dirname p) (repAll (stripBase (basename p))), none) := by
  unfold generate_valid_name
  rw [if_neg h1, if_neg (by rw [h2]; simp)]
  rfl

theorem gvn_main_t {p : List Char} (h1 : basename p ∉ forbidden_names) :
    generate_valid_name p true =
      (pathJoin (dirname p)
        (repAll (tildeStep true (stripBase (basename p)))), none) := by
  unfold generate_valid_name
  rw [if_neg h1, if_neg (by simp)]

theorem gvn_reserved_fst {p : List Char} (h : basename p ∈ forbidden_names)
    (fl : Bool) : (generate_valid_name p fl).1 = p := by
  rw [gvn_reserved h fl]

theorem gvn_temp_fst {p : List Char} (h1 : basename p ∉ forbidden_names)
    (h2 : hasSub (str "~$") (basename p) = true) :
    (generate_valid_name p false).1 = p := by
  rw [gvn_temp h1 h2]

theorem gvn_main_fst {p : List Char} (h1 : basename p ∉ forbidden_names)
    (h2 : hasSub (str "~$") (basename p) = false) :
    (generate_valid_name p false).1 =
      pathJoin (dirname p) (repAll (stripBase (basename p))) := by
  rw [gvn_main h1 h2]

theorem gvn_main_t_fst {p : List Char} (h1 : basename p ∉ forbidden_names) :
    (generate_valid_name p true).1 =
      pathJoin (dirname p) (repAll (tildeStep true (stripBase (basename p)))) := by
  rw [gvn_main_t h1]

theorem specStripName_none {b : List Char}
    (h : splitAtLastOcc '.' (lstrip b) = none) :
    specStripName b = rstrip (lstrip b) := by
  rw [specStripName, h]

theorem specStripName_some {b st aft : List Char}
    (h : splitAtLastOcc '.' (lstrip b) = some (st, aft)) :
    specStripName b = rstrip st ++ rstrip ('.' :: aft) := by
  rw [specStripName, h]

/-- The source's strip step (lstrip, then `splitext` and rstrip of both parts)
agrees with the spec's description (strip leading whitespace, split at the last
dot, strip trailing whitespace on both sides) on every separator-free name:
`splitext`'s all-dots-stem exception makes no difference after stripping. -/
theorem stripBase_eq_spec {b : List Char} (hb : '/' ∉ b) :
    stripBase b = specStripName b := by
  have hx_sep : '/' ∉ lstrip b := fun hm => hb (lstrip_mem hm)
  cases hdot : splitAtLastOcc '.' (lstrip b) with
  | none =>
    rw [specStripName_none hdot, stripBase,
      splitext_no_dot hx_sep (splitAtLastOcc_not_mem _ _ hdot)]
    show rstrip (lstrip b) ++ rstrip [] = rstrip (lstrip b)
    rw [show rstrip ([] : List Char) = [] from rfl, List.append_nil]
  | some pair =>
    obtain ⟨st, aft⟩ := pair
    obtain ⟨hxeq, haft⟩ := splitAtLastOcc_eq '.' _ _ _ hdot
    rw [specStripName_some hdot]
    by_cases hany : st.any (fun a => a ≠ '.') = true
    · rw [stripBase, splitext_dot_split hx_sep hdot hany]
    · have hany0 : st.any (fun a => a ≠ '.') = false := by simpa using hany
      have hdots : ∀ a ∈ st, a = '.' := by
        intro a ha
        by_contra hc
        have h1 : st.any (fun a => a ≠ '.') = true :=
          List.any_eq_true.2 ⟨a, ha, by simpa using hc⟩
        rw [h1] at hany0
        cases hany0
      rw [stripBase, splitext_dot_nosplit hx_sep hdot hany0]
      show rstrip (lstrip b) ++ rstrip [] = _
      rw [show rstrip ([] : List Char) = [] from rfl, List.append_nil, hxeq,
        rstrip_append st ('.' :: aft) (rstrip_ne_nil_of_head (by decide))]
      congr 1
      exact (rstrip_eq_self fun a ha => by
        rw [hdots a (mem_of_lastq ha)]
        decide).symm

/-- Claim C2, counterexample: the claim "sanitize(sanitize(p)) == sanitize(p)
for all inputs" is false on the code: for the path `_vti_vti_` the sanitizer
replaces the single non-overlapping occurrence of `_vti_` and thereby recreates
`_vti_`, so the first pass returns `_vti_` and a second pass shortens it again
to `_`. -/
theorem claim_C2_counterexample :
    (generate_valid_name ((generate_valid_name (str "_vti_vti_") false).1)
        false).1 ≠
      (generate_valid_name (str "_vti_vti_") false).1 := by decide

/-- Claim C2 (amended): `generate_valid_name` (with tilde-dollar stripping not
requested, its default) is idempotent on every input path whose sanitized base
name does not still contain the substring `_vti_` — the only forbidden
substring a first pass can leave behind, since it alone can be recreated by its
own replacement (e.g. `_vti_vti_`).  In particular an already-valid name (a
fixed point) is returned unchanged. -/
theorem claim_C2 (p : List Char)
    (hvti : hasSub (str "_vti_")
      (basename (generate_valid_name p false).1) = false) :
    (generate_valid_name (generate_valid_name p false).1 false).1 =
      (generate_valid_name p false).1 := by
  by_cases h1 : basename p ∈ forbidden_names
  · rw [gvn_reserved_fst h1 false, gvn_reserved_fst h1 false]
  · by_cases h2 : hasSub (str "~$") (basename p) = true
    · rw [gvn_temp_fst h1 h2, gvn_temp_fst h1 h2]
    · have h2f : hasSub (str "~$") (basename p) = false := by
        cases hx : hasSub (str "~$") (basename p)
        · rfl
        · exact absurd hx h2
      rw [gvn_main_fst h1 h2f] at hvti ⊢
      obtain ⟨hbase, hjoin⟩ :=
        pathJoin_round (p := p) (repAll_no_sep (stripBase (basename p)))
      rw [hbase] at hvti
      by_cases h3 : basename (pathJoin (dirname p)
          (repAll (stripBase (basename p)))) ∈ forbidden_names
      · rw [gvn_reserved_fst h3 false]
      · by_cases h4 : hasSub (str "~$") (basename (pathJoin (dirname p)
            (repAll (stripBase (basename p))))) = true
        · rw [gvn_temp_fst h3 h4]
        · have h4f : hasSub (str "~$") (basename (pathJoin (dirname p)
              (repAll (stripBase (basename p))))) = false := by
            cases hx : hasSub (str "~$") (basename (pathJoin (dirname p)
              (repAll (stripBase (basename p)))))
            · rfl
            · exact absurd hx h4
          rw [gvn_main_fst h3 h4f, hbase,
            sanitizeBase_fixed (basename_no_sep p) hvti, hjoin]

/-- Claim C2, witness: the idempotence theorem applied at the concrete path
`/d/my file?.txt`, whose sanitized form `/d/my file_.txt` contains no `_vti_`. -/
theorem claim_C2_witness :
    hasSub (str "_vti_")
      (basename (generate_valid_name (str "/d/my file?.txt") false).1) = false ∧
    (generate_valid_name
        (generate_valid_name (str "/d/my file?.txt") false).1 false).1 =
      (generate_valid_name (str "/d/my file?.txt") false).1 :=
  ⟨by decide, claim_C2 _ (by decide)⟩

/-- Claim C3, counterexample: the path `_vti_vti_` is not skipped (its base
name is neither reserved nor a `~$` temporary), it contains the forbidden
substring `_vti_`, and yet the corrected base name still contains `_vti_`, so
"zero remaining occurrences" fails for the substring `_vti_`. -/
theorem claim_C3_counterexample :
    basename (str "_vti_vti_") ∉ forbidden_names ∧
    hasSub (str "~$") (basename (str "_vti_vti_")) = false ∧
    hasSub (str "_vti_")
      (basename (generate_valid_name (str "_vti_vti_") false).1) = true := by
  decide

/-- Claim C3 (amended): for each of the nine forbidden characters `c` (the
singleton entries of `forbidden_substrings`), the substitution step is exactly
the pointwise map replacing each occurrence of `c` by one underscore, and for
every path that is not skipped as reserved or temporary the corrected base name
contains zero occurrences of `c`.  (For the tenth pattern, the substring
`_vti_`, each non-overlapping occurrence is likewise replaced by one
underscore, but the replacement can recreate `_vti_`, so zero remaining
occurrences is not guaranteed — see the counterexample.) -/
theorem claim_C3 :
    ∀ c : Char, [c] ∈ forbidden_substrings →
      (∀ s : List Char,
        replaceSubL [c] s = s.map (fun a => if a = c then '_' else a)) ∧
      (∀ p : List Char, basename p ∉ forbidden_names →
        hasSub (str "~$") (basename p) = false →
        (basename (generate_valid_name p false).1).count c = 0) := by
  intro c hc
  have hcu : c ≠ '_' := by
    rcases forb_shape [c] hc with ⟨-, h2⟩ | h1
    · exact h2
    · rw [show str "_vti_" = ['_', 'v', 't', 'i', '_'] from rfl] at h1
      injection h1 with hc2 htail
      exact List.noConfusion htail
  constructor
  · exact fun s => replaceSub_single c s
  · intro p h1 h2
    rw [gvn_main_fst h1 h2,
      (pathJoin_round (p := p) (repAll_no_sep (stripBase (basename p)))).1]
    exact List.count_eq_zero.2 (repAll_not_mem_nine hc hcu _)

/-- Claim C3, witness: the character `:` at the concrete path `/d/a:b`. -/
theorem claim_C3_witness :
    ([':'] ∈ forbidden_substrings) ∧
    replaceSubL [':'] (str "a:b") =
      (str "a:b").map (fun a => if a = ':' then '_' else a) ∧
    basename (str "/d/a:b") ∉ forbidden_names ∧
    hasSub (str "~$") (basename (str "/d/a:b")) = false ∧
    (basename (generate_valid_name (str "/d/a:b") false).1).count ':' = 0 :=
  ⟨by decide, (claim_C3 ':' (by decide)).1 _, by decide, by decide,
    (claim_C3 ':' (by decide)).2 _ (by decide) (by decide)⟩

/-- Claim C9: for every path that is not skipped as reserved or temporary, the
sanitizer strips leading whitespace from the base name and strips trailing
whitespace independently from the name stem and from the extension, i.e. on
both sides of the last-dot split exactly as the spec words it
(`specStripName`); the corrected path is the directory rejoined with the
substitution step applied to that stripped name.  The witness checks the
spec's example `"  Report  .txt  "` → `"Report.txt"`. -/
theorem claim_C9 :
    (∀ b : List Char, '/' ∉ b → stripBase b = specStripName b) ∧
    ∀ p : List Char, basename p ∉ forbidden_names →
      hasSub (str "~$") (basename p) = false →
      (generate_valid_name p false).1 =
        pathJoin (dirname p) (repAll (specStripName (basename p))) := by
  constructor
  · exact fun b hb => stripBase_eq_spec hb
  · intro p h1 h2
    rw [gvn_main_fst h1 h2, stripBase_eq_spec (basename_no_sep p)]

/-- Claim C9, witness: the spec's example `"  Report  .txt  "` sanitizes to
`"Report.txt"`, through the spec-worded strip step. -/
theorem claim_C9_witness :
    ('/' ∉ str "  Report  .txt  ") ∧
    stripBase (str "  Report  .txt  ") = specStripName (str "  Report  .txt  ") ∧
    basename (str "  Report  .txt  ") ∉ forbidden_names ∧
    hasSub (str "~$") (basename (str "  Report  .txt  ")) = false ∧
    (generate_valid_name (str "  Report  .txt  ") false).1 =
      pathJoin (dirname (str "  Report  .txt  "))
        (repAll (specStripName (basename (str "  Report  .txt  ")))) ∧
    (generate_valid_name (str "  Report  .txt  ") false).1 = str "Report.txt" :=
  ⟨by decide, claim_C9.1 _ (by decide), by decide, by decide,
    claim_C9.2 _ (by decide) (by decide), by decide⟩

theorem tildeStep_true (nb : List Char) :
    tildeStep true nb = if nb.take 2 = str "~$" then nb.drop 2 else nb := rfl

/-- Claim C10: when tilde-dollar stripping is requested, the sanitizer removes
at most one leading `~$` from the whitespace-stripped base name: the number of
`~$` occurrence positions in the corrected base name equals the number in the
stripped base name, minus one exactly when the stripped name starts with `~$`.
Non-leading occurrences survive unchanged, because neither `~` nor `$` is in
the forbidden-substring list and the substitution step preserves `~$`
occurrence counts. -/
theorem claim_C10 (p : List Char) (h1 : basename p ∉ forbidden_names) :
    countPos (str "~$") (basename (generate_valid_name p true).1) =
      countPos (str "~$") (stripBase (basename p)) -
        (if (stripBase (basename p)).take 2 = str "~$" then 1 else 0) := by
  rw [gvn_main_t_fst h1,
    (pathJoin_round (p := p)
      (repAll_no_sep (tildeStep true (stripBase (basename p))))).1,
    tildeStep_true, show str "~$" = ['~', '$'] from rfl, countPos_repAll]
  by_cases ht : (stripBase (basename p)).take 2 = ['~', '$']
  · rw [if_pos ht, if_pos ht]
    obtain ⟨u, hu⟩ : ∃ u, stripBase (basename p) = '~' :: '$' :: u := by
      have h2 := ht
      cases hS : stripBase (basename p) with
      | nil =>
        rw [hS] at h2
        exact absurd h2 (by decide)
      | cons a s =>
        cases s with
        | nil =>
          rw [hS] at h2
          have h3 : [a] = ['~', '$'] := h2
          injection h3 with h3a h3b
          exact List.noConfusion h3b
        | cons b u =>
          rw [hS] at h2
          have h3 : [a, b] = ['~', '$'] := h2
          injection h3 with ha h3b
          injection h3b with hb2 _
          exact ⟨u, by rw [ha, hb2]⟩
    rw [hu]
    show countPos ['~', '$'] u = countPos ['~', '$'] ('~' :: '$' :: u) - 1
    rw [countPos, countPos,
      if_pos (show startsWithL ['~', '$'] ('~' :: '$' :: u) = true from rfl),
      if_neg]
    · omega
    · intro hc
      obtain ⟨v, hv⟩ := (startsWithL_iff _ _).1 hc
      injection hv with h1v _
      exact absurd h1v (by decide)
  · rw [if_neg ht, if_neg ht, Nat.sub_zero]

/-- Claim C10, witness: the concrete path `/d/~$a~$b.txt` under tilde-dollar
stripping: only the leading `~$` is removed; the interior `~$` survives. -/
theorem claim_C10_witness :
    basename (str "/d/~$a~$b.txt") ∉ forbidden_names ∧
    countPos (str "~$") (basename (generate_valid_name (str "/d/~$a~$b.txt") true).1) =
      countPos (str "~$") (stripBase (basename (str "/d/~$a~$b.txt"))) -
        (if (stripBase (basename (str "/d/~$a~$b.txt"))).take 2 = str "~$"
          then 1 else 0) ∧
    (generate_valid_name (str "/d/~$a~$b.txt") true).1 = str "/d/a~$b.txt" :=
  ⟨by decide, claim_C10 _ (by decide), by decide⟩

theorem take_sub_length (X R : List Char) :
    (X ++ R).take ((X ++ R).length - R.length) = X := by
  rw [List.length_append, Nat.add_sub_cancel]
  exact List.take_left X R

/-- Claim C4, counterexample: read literally, "splitting the proposed path at
the last dot" makes `.gitignore` split into an empty stem and extension
`.gitignore`, giving retry candidate `" 1.gitignore"`; the code uses
`os.path.splitext`, under which `.gitignore` has no extension, and produces
`".gitignore 1"`. -/
theorem claim_C4_counterexample :
    lastDotCandidate (str ".gitignore") ≠ dupe_candidate (str ".gitignore") ∧
    lastDotCandidate (str ".gitignore") = str " 1.gitignore" ∧
    dupe_candidate (str ".gitignore") = str ".gitignore 1" := by decide

/-- Claim C4 (amended): the retry candidate is derived by splitting the
proposed path into stem and extension with `os.path.splitext` (the last dot of
the final path component, except that a component whose characters before that
dot are all dots — like `.gitignore` — has no extension): if the stem ends in
a digit, the maximal trailing run of digits is parsed as an integer,
incremented by one and substituted back with no leading zeros (`pre` below is
the stem up to that run and never ends in a digit); otherwise the literal
suffix `" 1"` is appended to the stem; the extension is then reattached.  The
hypothesis `p ≠ []` excludes the degenerate empty proposed path, on which the
Python source would raise `ValueError` from `int('')`. -/
theorem claim_C4 (p : List Char) (_hp : p ≠ []) :
    (((splitext p).1).getLastD ' ' ∈ digits →
      ∃ pre run, (splitext p).1 = pre ++ run ∧ run ≠ [] ∧
        (∀ d ∈ run, d ∈ digits) ∧
        (∀ c, pre.getLast? = some c → c ∉ digits) ∧
        dupe_candidate p =
          pre ++ natToChars (digitsToNat run + 1) ++ (splitext p).2) ∧
    (((splitext p).1).getLastD ' ' ∉ digits →
      dupe_candidate p = (splitext p).1 ++ str " 1" ++ (splitext p).2) := by
  constructor
  · intro hd
    refine ⟨(((splitext p).1).reverse.dropWhile (fun d => d ∈ digits)).reverse,
      (((splitext p).1).reverse.takeWhile (fun d => d ∈ digits)).reverse,
      ?_, ?_, ?_, ?_, ?_⟩
    · rw [← List.reverse_append, List.takeWhile_append_dropWhile,
        List.reverse_reverse]
    · have hne : (splitext p).1 ≠ [] := by
        intro hc
        rw [hc] at hd
        exact absurd hd (by decide)
      obtain ⟨c, rest, hrev⟩ :=
        List.exists_cons_of_ne_nil (fun hc : ((splitext p).1).reverse = [] =>
          hne (by rw [← List.reverse_reverse ((splitext p).1), hc]; rfl))
      have hgl : ((splitext p).1).getLastD ' ' = c := by
        rw [List.getLastD_eq_getLast?, List.getLast?_eq_head?_reverse, hrev]
        rfl
      rw [hrev, List.takeWhile_cons,
        if_pos (by rw [hgl] at hd; exact decide_eq_true hd)]
      simp
    · intro d hdm
      have := takeWhile_mem_pred (List.mem_reverse.1 hdm)
      simpa using this
    · intro c hc
      rw [List.getLast?_eq_head?_reverse, List.reverse_reverse] at hc
      have := dropWhile_headq (p := fun d => decide (d ∈ digits)) hc
      simpa using this
    · rw [dupe_candidate, if_pos hd]
      congr 2
      have h2 := take_sub_length
        ((((splitext p).1).reverse.dropWhile (fun d => d ∈ digits)).reverse)
        ((((splitext p).1).reverse.takeWhile (fun d => d ∈ digits)).reverse)
      have h1 : (splitext p).1 =
          (((splitext p).1).reverse.dropWhile (fun d => d ∈ digits)).reverse ++
          (((splitext p).1).reverse.takeWhile (fun d => d ∈ digits)).reverse := by
        rw [← List.reverse_append, List.takeWhile_append_dropWhile,
          List.reverse_reverse]
      rw [← h1] at h2
      exact h2
  · intro hd
    rw [dupe_candidate, if_neg hd]

/-- Claim C4, witness: `Report 03.txt` colliding — the trailing run `03` is
parsed as 3 and re-rendered as `4`, dropping the leading zero. -/
theorem claim_C4_witness :
    (str "Report 03.txt" ≠ []) ∧
    ((splitext (str "Report 03.txt")).1).getLastD ' ' ∈ digits ∧
    (∃ pre run, (splitext (str "Report 03.txt")).1 = pre ++ run ∧ run ≠ [] ∧
      (∀ d ∈ run, d ∈ digits) ∧
      (∀ c, pre.getLast? = some c → c ∉ digits) ∧
      dupe_candidate (str "Report 03.txt") =
        pre ++ natToChars (digitsToNat run + 1) ++
          (splitext (str "Report 03.txt")).2) ∧
    dupe_candidate (str "Report 03.txt") = str "Report 4.txt" :=
  ⟨by decide, by decide,
    (claim_C4 (str "Report 03.txt") (by decide)).1 (by decide), by decide⟩

/-! ## Lemmas about `osRename` and `rename_fixing_dupes` -/

theorem osRename_ok {fs : List Entry} {old nw : List Char}
    (hold : fsHas fs old = true) (hcol : fsHas fs nw = false ∨ nw = old) :
    osRename fs old nw =
      Except.ok (fs.map (fun e => Entry.mk (movePath old nw e.path) e.isDir)) := by
  unfold osRename
  rw [if_neg (by simp [hold]), if_neg]
  intro hc
  rcases hcol with h | h
  · rw [h] at hc
    exact absurd hc.2 (by intro hcc; cases hcc)
  · exact hc.1 h

theorem osRename_exists {fs : List Entry} {old nw : List Char}
    (hold : fsHas fs old = true) (hne : nw ≠ old) (hcol : fsHas fs nw = true) :
    osRename fs old nw = Except.error OSErr.fileExists := by
  unfold osRename
  rw [if_neg (by simp [hold]), if_pos ⟨hne, hcol⟩]

theorem fsHas_map_move {fs : List Entry} {old : List Char} (nw : List Char)
    (hold : fsHas fs old = true) :
    fsHas (fs.map (fun e => Entry.mk (movePath old nw e.path) e.isDir)) nw = true := by
  rw [fsHas, List.any_eq_true] at hold ⊢
  obtain ⟨e, he, hep⟩ := hold
  refine ⟨Entry.mk (movePath old nw e.path) e.isDir,
    List.mem_map.2 ⟨e, he, rfl⟩, ?_⟩
  show (movePath old nw e.path == nw) = true
  rw [movePath, if_pos (beq_iff_eq.1 hep)]
  simp

theorem rfd_no_collision {fs : List Entry} {old nw : List Char}
    (hold : fsHas fs old = true) (hcol : fsHas fs nw = false ∨ nw = old) :
    rename_fixing_dupes fs old nw =
      RenameOutcome.mk
        (fs.map (fun e => Entry.mk (movePath old nw e.path) e.isDir))
        (Except.ok nw) 1 := by
  unfold rename_fixing_dupes
  rw [osRename_ok hold hcol]

theorem rfd_one_collision {fs : List Entry} {old nw : List Char}
    (hold : fsHas fs old = true) (hne : nw ≠ old) (hcol : fsHas fs nw = true)
    (hcand : fsHas fs (dupe_candidate nw) = false ∨ dupe_candidate nw = old) :
    rename_fixing_dupes fs old nw =
      RenameOutcome.mk
        (fs.map (fun e =>
          Entry.mk (movePath old (dupe_candidate nw) e.path) e.isDir))
        (Except.ok (dupe_candidate nw)) 2 := by
  unfold rename_fixing_dupes
  rw [osRename_exists hold hne hcol, osRename_ok hold hcand]

/-- Claim C5: on success `rename_fixing_dupes` returns the path that now
exists on disk, and it performs the physical `os.rename` exactly once when
there is no collision and exactly twice when there is exactly one collision
(the first attempt raising `FileExistsError`, the second succeeding at the
suffixed candidate name). -/
theorem claim_C5 (fs : List Entry) (old nw : List Char)
    (hold : fsHas fs old = true) (hne : nw ≠ old) :
    (fsHas fs nw = false →
      (rename_fixing_dupes fs old nw).attempts = 1 ∧
      (rename_fixing_dupes fs old nw).result = Except.ok nw ∧
      fsHas (rename_fixing_dupes fs old nw).fs nw = true) ∧
    (fsHas fs nw = true → fsHas fs (dupe_candidate nw) = false →
      (rename_fixing_dupes fs old nw).attempts = 2 ∧
      (rename_fixing_dupes fs old nw).result = Except.ok (dupe_candidate nw) ∧
      fsHas (rename_fixing_dupes fs old nw).fs (dupe_candidate nw) = true) := by
  constructor
  · intro hcol
    rw [rfd_no_collision hold (Or.inl hcol)]
    exact ⟨rfl, rfl, fsHas_map_move nw hold⟩
  · intro hcol hcand
    rw [rfd_one_collision hold hne hcol (Or.inl hcand)]
    exact ⟨rfl, rfl, fsHas_map_move (dupe_candidate nw) hold⟩

/-- Claim C5, witness: renaming `/r/x:` to `/r/x_` with no collision — one
physical rename, the returned path exists afterwards. -/
theorem claim_C5_witness :
    (rename_fixing_dupes [Entry.mk (str "/r/x:") false]
        (str "/r/x:") (str "/r/x_")).attempts = 1 ∧
    (rename_fixing_dupes [Entry.mk (str "/r/x:") false]
        (str "/r/x:") (str "/r/x_")).result = Except.ok (str "/r/x_") ∧
    fsHas (rename_fixing_dupes [Entry.mk (str "/r/x:") false]
        (str "/r/x:") (str "/r/x_")).fs (str "/r/x_") = true :=
  (claim_C5 _ _ _ (by decide) (by decide)).1 (by decide)

/-- Claim C6: the suffixed retry is attempted only once per call: when the
incremented candidate name also already exists, the second `os.rename` is
attempted with that name (two attempts in total), its `FileExistsError`
propagates uncaught to the caller, and the filesystem is unchanged — the
source file keeps its original name. -/
theorem claim_C6 (fs : List Entry) (old nw : List Char)
    (hold : fsHas fs old = true) (hne : nw ≠ old)
    (hcol : fsHas fs nw = true) (hcne : dupe_candidate nw ≠ old)
    (hcand : fsHas fs (dupe_candidate nw) = true) :
    rename_fixing_dupes fs old nw =
      RenameOutcome.mk fs (Except.error OSErr.fileExists) 2 := by
  unfold rename_fixing_dupes
  rw [osRename_exists hold hne hcol, osRename_exists hold hcne hcand]

/-- Claim C6, witness: renaming `/a` to `/b` when both `/b` and the candidate
`/b 1` already exist: two attempts, the error propagates, nothing moves. -/
theorem claim_C6_witness :
    rename_fixing_dupes
        [Entry.mk (str "/a") true, Entry.mk (str "/b") true,
          Entry.mk (str "/b 1") true]
        (str "/a") (str "/b") =
      RenameOutcome.mk
        [Entry.mk (str "/a") true, Entry.mk (str "/b") true,
          Entry.mk (str "/b 1") true]
        (Except.error OSErr.fileExists) 2 :=
  claim_C6 _ _ _ (by decide) (by decide) (by decide) (by decide) (by decide)

/-! ## Equations of the directory-level loop -/

theorem processLevel_nil (ts : Nat → List Char) (st : WalkState) :
    processLevel ts st [] = (st, []) := rfl

theorem processLevel_cons_same (ts : Nat → List Char) (st : WalkState)
    (folder : List Char) (rest : List (List Char))
    (h : (generate_valid_name folder false).1 = folder) :
    processLevel ts st (folder :: rest) =
      ((processLevel ts st rest).1, folder :: (processLevel ts st rest).2) := by
  conv_lhs => unfold processLevel
  rw [if_pos h]

theorem processLevel_cons_err (ts : Nat → List Char) (st : WalkState)
    (folder : List Char) (rest : List (List Char))
    (hne : ¬ (generate_valid_name folder false).1 = folder) {e : OSErr}
    (herr : (rename_fixing_dupes st.fs folder
      (generate_valid_name folder false).1).result = Except.error e) :
    processLevel ts st (folder :: rest) =
      (WalkState.mk (rename_fixing_dupes st.fs folder
          (generate_valid_name folder false).1).fs st.log st.clock true,
        folder :: rest) := by
  conv_lhs => unfold processLevel
  rw [if_neg hne, herr]

theorem processLevel_cons_ok (ts : Nat → List Char) (st : WalkState)
    (folder : List Char) (rest : List (List Char))
    (hne : ¬ (generate_valid_name folder false).1 = folder) {q : List Char}
    (hok : (rename_fixing_dupes st.fs folder
      (generate_valid_name folder false).1).result = Except.ok q) :
    processLevel ts st (folder :: rest) =
      ((processLevel ts
          (logRename ts
            (WalkState.mk (rename_fixing_dupes st.fs folder
              (generate_valid_name folder false).1).fs st.log st.clock
              st.crashed)
            folder (generate_valid_name folder false).1) rest).1,
        (generate_valid_name folder false).1 ::
          (processLevel ts
            (logRename ts
              (WalkState.mk (rename_fixing_dupes st.fs folder
                (generate_valid_name folder false).1).fs st.log st.clock
                st.crashed)
              folder (generate_valid_name folder false).1) rest).2) := by
  conv_lhs => unfold processLevel
  rw [if_neg hne, hok]

/-- Claim C7: when the base name exactly (case-sensitively) matches a reserved
name, and when the base name contains `~$` and stripping was not requested,
`generate_valid_name` returns the input path unchanged together with only the
corresponding non-fatal warning (modelled as a returned `Warning` value —
Python's `warnings.warn` prints and does not raise, and the modelled function
is total, so no exception occurs); processing continues: in the walker's
level loop such an entry causes no rename and no log write, stays in the
pending list, and the remaining entries are processed exactly as before. -/
theorem claim_C7 (p : List Char) :
    (basename p ∈ forbidden_names →
      generate_valid_name p false = (p, some Warning.prohibitedName) ∧
      ∀ (ts : Nat → List Char) (st : WalkState) (rest : List (List Char)),
        processLevel ts st (p :: rest) =
          ((processLevel ts st rest).1, p :: (processLevel ts st rest).2)) ∧
    (basename p ∉ forbidden_names → hasSub (str "~$") (basename p) = true →
      generate_valid_name p false = (p, some Warning.temporaryFile) ∧
      ∀ (ts : Nat → List Char) (st : WalkState) (rest : List (List Char)),
        processLevel ts st (p :: rest) =
          ((processLevel ts st rest).1, p :: (processLevel ts st rest).2)) := by
  constructor
  · intro h
    refine ⟨gvn_reserved h false, fun ts st rest => ?_⟩
    exact processLevel_cons_same ts st p rest (gvn_reserved_fst h false)
  · intro h1 h2
    refine ⟨gvn_temp h1 h2, fun ts st rest => ?_⟩
    exact processLevel_cons_same ts st p rest (gvn_temp_fst h1 h2)

/-- Claim C7, witness: the reserved name `CON` and the temporary name
`~$Budget.xlsx` inside a directory `d`. -/
theorem claim_C7_witness :
    (generate_valid_name (str "d/CON") false =
      (str "d/CON", some Warning.prohibitedName)) ∧
    (generate_valid_name (str "d/~$Budget.xlsx") false =
      (str "d/~$Budget.xlsx", some Warning.temporaryFile)) ∧
    processLevel (fun _ => str "T") (WalkState.mk [] [] 0 false)
        [str "d/CON"] =
      (WalkState.mk [] [] 0 false, [str "d/CON"]) :=
  ⟨((claim_C7 (str "d/CON")).1 (by decide)).1,
    ((claim_C7 (str "d/~$Budget.xlsx")).2 (by decide) (by decide)).1,
    by
      rw [((claim_C7 (str "d/CON")).1 (by decide)).2 (fun _ => str "T")
        (WalkState.mk [] [] 0 false) [],
        processLevel_nil]⟩

/-! ## Shape of the log -/

theorem logRename_log (ts : Nat → List Char) (st : WalkState)
    (old nw : List Char) :
    (logRename ts st old nw).log =
      st.log ++ [write_to_log_row old nw none (ts st.clock)] := rfl

theorem processLevel_log (ts : Nat → List Char) (pending : List (List Char))
    (st : WalkState) :
    ∃ rows, (processLevel ts st pending).1.log = st.log ++ rows ∧
      ∀ r ∈ rows, ∃ o k,
        r = write_to_log_row o (generate_valid_name o false).1 none (ts k) ∧
        ¬ (generate_valid_name o false).1 = o := by
  induction pending generalizing st with
  | nil => exact ⟨[], by simp [processLevel_nil], by simp⟩
  | cons folder rest ih =>
    by_cases h : (generate_valid_name folder false).1 = folder
    · rw [processLevel_cons_same ts st folder rest h]
      exact ih st
    · cases hres : (rename_fixing_dupes st.fs folder
          (generate_valid_name folder false).1).result with
      | error e =>
        rw [processLevel_cons_err ts st folder rest h hres]
        exact ⟨[], by simp, by simp⟩
      | ok q =>
        rw [processLevel_cons_ok ts st folder rest h hres]
        rcases ih (logRename ts
            (WalkState.mk (rename_fixing_dupes st.fs folder
              (generate_valid_name folder false).1).fs st.log st.clock
              st.crashed)
            folder (generate_valid_name folder false).1) with ⟨rows, h1, h2⟩
        refine ⟨write_to_log_row folder (generate_valid_name folder false).1
            none (ts st.clock) :: rows, ?_, ?_⟩
        · rw [h1, logRename_log]
          simp
        · intro r hr
          rcases List.mem_cons.mp hr with hr | hr
          · exact ⟨folder, st.clock, hr, h⟩
          · exact h2 r hr

theorem dirPhase_zero (ts : Nat → List Char) (st : WalkState)
    (pending : List (List Char)) : dirPhase ts 0 st pending = st := rfl

theorem dirPhase_succ (ts : Nat → List Char) (fuel : Nat) (st : WalkState)
    (pending : List (List Char)) :
    dirPhase ts (fuel + 1) st pending =
      if pending = [] then st
      else if (processLevel ts st pending).1.crashed then
        (processLevel ts st pending).1
      else
        dirPhase ts fuel (processLevel ts st pending).1
          (nextLevel (processLevel ts st pending).1.fs
            (processLevel ts st pending).2) := rfl

theorem dirPhase_log (ts : Nat → List Char) (fuel : Nat) (st : WalkState)
    (pending : List (List Char)) :
    ∃ rows, (dirPhase ts fuel st pending).log = st.log ++ rows ∧
      ∀ r ∈ rows, ∃ o k,
        r = write_to_log_row o (generate_valid_name o false).1 none (ts k) ∧
        ¬ (generate_valid_name o false).1 = o := by
  induction fuel generalizing st pending with
  | zero => exact ⟨[], by simp [dirPhase_zero], by simp⟩
  | succ fuel ih =>
    rw [dirPhase_succ]
    by_cases hp : pending = []
    · rw [if_pos hp]
      exact ⟨[], by simp, by simp⟩
    · rw [if_neg hp]
      by_cases hc : (processLevel ts st pending).1.crashed = true
      · rw [if_pos hc]
        exact processLevel_log ts pending st
      · rw [if_neg hc]
        rcases processLevel_log ts pending st with ⟨rows1, h1, h1s⟩
        rcases ih (processLevel ts st pending).1
            (nextLevel (processLevel ts st pending).1.fs
              (processLevel ts st pending).2) with ⟨rows2, h2, h2s⟩
        refine ⟨rows1 ++ rows2, ?_, ?_⟩
        · rw [h2, h1, List.append_assoc]
        · intro r hr
          rcases List.mem_append.mp hr with hr | hr
          · exact h1s r hr
          · exact h2s r hr

theorem filePhase_nil (ts : Nat → List Char) (st : WalkState) :
    filePhase ts st [] = st := rfl

theorem filePhase_cons_same (ts : Nat → List Char) (st : WalkState)
    (f : List Char) (rest : List (List Char))
    (h : (generate_valid_name f false).1 = f) :
    filePhase ts st (f :: rest) = filePhase ts st rest := by
  conv_lhs => unfold filePhase
  rw [if_pos h]

theorem filePhase_cons_err (ts : Nat → List Char) (st : WalkState)
    (f : List Char) (rest : List (List Char))
    (hne : ¬ (generate_valid_name f false).1 = f) {e : OSErr}
    (herr : (rename_fixing_dupes st.fs f
      (generate_valid_name f false).1).result = Except.error e) :
    filePhase ts st (f :: rest) =
      WalkState.mk (rename_fixing_dupes st.fs f
        (generate_valid_name f false).1).fs st.log st.clock true := by
  conv_lhs => unfold filePhase
  rw [if_neg hne, herr]

theorem filePhase_cons_ok (ts : Nat → List Char) (st : WalkState)
    (f : List Char) (rest : List (List Char))
    (hne : ¬ (generate_valid_name f false).1 = f) {q : List Char}
    (hok : (rename_fixing_dupes st.fs f
      (generate_valid_name f false).1).result = Except.ok q) :
    filePhase ts st (f :: rest) =
      filePhase ts
        (logRename ts
          (WalkState.mk (rename_fixing_dupes st.fs f
            (generate_valid_name f false).1).fs st.log st.clock st.crashed)
          f (generate_valid_name f false).1) rest := by
  conv_lhs => unfold filePhase
  rw [if_neg hne, hok]

theorem filePhase_log (ts : Nat → List Char) (files : List (List Char))
    (st : WalkState) :
    ∃ rows, (filePhase ts st files).log = st.log ++ rows ∧
      ∀ r ∈ rows, ∃ o k,
        r = write_to_log_row o (generate_valid_name o false).1 none (ts k) ∧
        ¬ (generate_valid_name o false).1 = o := by
  induction files generalizing st with
  | nil => exact ⟨[], by simp [filePhase_nil], by simp⟩
  | cons f rest ih =>
    by_cases h : (generate_valid_name f false).1 = f
    · rw [filePhase_cons_same ts st f rest h]
      exact ih st
    · cases hres : (rename_fixing_dupes st.fs f
          (generate_valid_name f false).1).result with
      | error e =>
        rw [filePhase_cons_err ts st f rest h hres]
        exact ⟨[], by simp, by simp⟩
      | ok q =>
        rw [filePhase_cons_ok ts st f rest h hres]
        rcases ih (logRename ts
            (WalkState.mk (rename_fixing_dupes st.fs f
              (generate_valid_name f false).1).fs st.log st.clock st.crashed)
            f (generate_valid_name f false).1) with ⟨rows, h1, h2⟩
        refine ⟨write_to_log_row f (generate_valid_name f false).1
            none (ts st.clock) :: rows, ?_, ?_⟩
        · rw [h1, logRename_log]
          simp
        · intro r hr
          rcases List.mem_cons.mp hr with hr | hr
          · exact ⟨f, st.clock, hr, h⟩
          · exact h2 r hr

/-- Claim C8: in every run, the first row of the log is the fixed header row
whose three fields are the literal strings `old_path`, `new_path` and
`datetime` (the timestamp field is the literal text `datetime`, not a
timestamp), written before any rename record; every later row records one
rename as `[old path, proposed new path, timestamp string]`. -/
theorem claim_C8 (posix : Bool) (while_limit : Nat) (ts : Nat → List Char)
    (root : List Char) (fs0 : List Entry) :
    headerRow = [str "old_path", str "new_path", str "datetime"] ∧
    ∃ rows, (runProgram posix while_limit ts root fs0).log = headerRow :: rows ∧
      ∀ r ∈ rows, ∃ o k,
        r = write_to_log_row o (generate_valid_name o false).1 none (ts k) ∧
        ¬ (generate_valid_name o false).1 = o := by
  refine ⟨rfl, ?_⟩
  unfold runProgram
  rcases dirPhase_log ts while_limit (WalkState.mk fs0 [headerRow] 0 false)
      (initialDirs posix fs0 root) with ⟨rows1, h1, h1s⟩
  by_cases hc : (dirPhase ts while_limit (WalkState.mk fs0 [headerRow] 0 false)
      (initialDirs posix fs0 root)).crashed = true
  · rw [if_pos hc]
    exact ⟨rows1, h1, h1s⟩
  · rw [if_neg hc]
    rcases filePhase_log ts
        (find_files posix
          (dirPhase ts while_limit (WalkState.mk fs0 [headerRow] 0 false)
            (initialDirs posix fs0 root)).fs root)
        (dirPhase ts while_limit (WalkState.mk fs0 [headerRow] 0 false)
          (initialDirs posix fs0 root)) with ⟨rows2, h2, h2s⟩
    refine ⟨rows1 ++ rows2, ?_, ?_⟩
    · rw [h2, h1, List.append_assoc]
      rfl
    · intro r hr
      rcases List.mem_append.mp hr with hr | hr
      · exact h1s r hr
      · exact h2s r hr

/-- Claim C8, witness: a concrete one-folder run; the log is the header row
followed by the single rename record of `/r/a:`. -/
theorem claim_C8_witness :
    headerRow = [str "old_path", str "new_path", str "datetime"] ∧
    ∃ rows, (runProgram false 2 (fun _ => str "T") (str "/r")
        [Entry.mk (str "/r") true, Entry.mk (str "/r/a:") true]).log =
        headerRow :: rows ∧
      ∀ r ∈ rows, ∃ (o : List Char) (_ : Nat),
        r = write_to_log_row o (generate_valid_name o false).1 none
          (str "T") ∧
        ¬ (generate_valid_name o false).1 = o :=
  claim_C8 false 2 (fun _ => str "T") (str "/r")
    [Entry.mk (str "/r") true, Entry.mk (str "/r/a:") true]

/-- Claim C1, refutation (code bug): the walker stores the PROPOSED name back
into the pending list and the log, not the path `rename_fixing_dupes`
actually produced.  Starting from a root `/r` holding a directory `/r/a:`
(with a subdirectory `/r/a:/sub`) and an unrelated file `/r/a_`, the proposed
name `/r/a_` collides, so the directory really lands at `/r/a_ 1` — yet the
pending list and the log both say `/r/a_`, a path that on disk is the old
unrelated FILE.  The stale pending entry then yields no next level at all:
the renamed folder's subdirectory `/r/a_ 1/sub` is never scheduled, refuting
the invariant that a pending entry always reflects its most recent on-disk
name. -/
theorem claim_C1 :
    (rename_fixing_dupes
        [Entry.mk (str "/r") true, Entry.mk (str "/r/a:") true,
          Entry.mk (str "/r/a_") false, Entry.mk (str "/r/a:/sub") true]
        (str "/r/a:")
        (generate_valid_name (str "/r/a:") false).1).result =
      Except.ok (str "/r/a_ 1") ∧
    processLevel (fun _ => str "T")
        (WalkState.mk
          [Entry.mk (str "/r") true, Entry.mk (str "/r/a:") true,
            Entry.mk (str "/r/a_") false, Entry.mk (str "/r/a:/sub") true]
          [headerRow] 0 false)
        [str "/r/a:"] =
      (WalkState.mk
        [Entry.mk (str "/r") true, Entry.mk (str "/r/a_ 1") true,
          Entry.mk (str "/r/a_") false, Entry.mk (str "/r/a_ 1/sub") true]
        [headerRow, [str "/r/a:", str "/r/a_", str "T"]] 1 false,
        [str "/r/a_"]) ∧
    nextLevel
        [Entry.mk (str "/r") true, Entry.mk (str "/r/a_ 1") true,
          Entry.mk (str "/r/a_") false, Entry.mk (str "/r/a_ 1/sub") true]
        [str "/r/a_"] = [] := by
  refine ⟨by decide, by decide, by decide⟩

end CODN
